import Mathlib

/-!
Shallow embedding of the Mockzure server (YourCloudTools/Mockzure) for
verification of its natural-language specification.

The embedding translates the Go source directly:
* the service-principal permission gate (`ServiceAccount.hasPermission`),
* configuration hydration of service accounts (`Store.loadConfig`),
* the bearer/basic credential authentication core
  (`Store.authenticateServiceAccount`, after transport decoding),
* the OAuth2 authorize and token endpoints (in-memory code table),
* the unsigned JWT builder (`makeUnsignedJWT` with base64url),
* the ARM virtual-machine response mapper (`convertVMToARMFormat`,
  `mapVirtualMachinesResponse`),
* route generation from OpenAPI 3.0 / Swagger 2.0 documents,
* the path-pattern matcher `MatchPath` and the HTTP dispatch handlers.

Go maps are modelled as association lists with key-unique insertion;
machine integers do not overflow in any modelled quantity, so `Nat`/`Int`
are used directly.
-/

set_option autoImplicit false

namespace Mockzure

/-! ### Association-list model of Go maps (string keys) -/

/-- Lookup in a Go `map[string]V`: first binding for the key. -/
def mapLookup {V : Type} (m : List (String × V)) (k : String) : Option V :=
  (m.find? (fun kv => kv.1 = k)).map (fun kv => kv.2)

/-- Insertion `m[k] = v` in a Go map: overwrites any existing binding. -/
def mapInsert {V : Type} (m : List (String × V)) (k : String) (v : V) :
    List (String × V) :=
  (k, v) :: m.filter (fun kv => kv.1 ≠ k)

/-- Deletion `delete(m, k)` in a Go map. -/
def mapErase {V : Type} (m : List (String × V)) (k : String) :
    List (String × V) :=
  m.filter (fun kv => kv.1 ≠ k)

/-! ### Service principals and the permission gate (main_test.go) -/

/-- `ResourceGroupPerm`: permissions of a service account on one resource
group; `resourceGroup` is a literal name or the wildcard `*`. -/
structure ResourceGroupPerm where
  resourceGroup : String
  permissions : List String
deriving DecidableEq, Repr

/-- `ServiceAccount` as stored in the process store (no secret). -/
structure ServiceAccount where
  id : String
  applicationId : String
  displayName : String
  description : String
  accountEnabled : Bool
  permissions : List ResourceGroupPerm
  servicePrincipal : Bool
  graphPermissions : List String
deriving DecidableEq, Repr

/-- `ServiceAccount.hasPermission` from main_test.go: an entry whose
resource group is the wildcard or the requested one, holding the requested
permission or the wildcard, grants access; the loop falls through to
`false`. -/
def hasPermission (sa : ServiceAccount) (resourceGroup permission : String) :
    Bool :=
  sa.permissions.any (fun perm =>
    if perm.resourceGroup ≠ "*" ∧ perm.resourceGroup ≠ resourceGroup then
      false
    else
      perm.permissions.any (fun p => p = permission ∨ p = "*"))

/-! ### Configuration hydration and credential authentication -/

/-- `FullConfigServiceAcc`: one service-account record of the configuration
file, secret included (timestamps omitted: no modelled behavior reads
them). -/
structure FullConfigServiceAcc where
  id : String
  applicationId : String
  secret : String
  displayName : String
  description : String
  accountEnabled : Bool
  permissions : List ResourceGroupPerm
  servicePrincipal : Bool
  graphPermissions : List String
deriving DecidableEq, Repr

/-- `ServiceAccountSecret`: the credential record kept apart from the
store-side `ServiceAccount`. -/
structure ServiceAccountSecret where
  applicationId : String
  secret : String
  displayName : String
  description : String
  graphPermissions : List String
deriving DecidableEq, Repr

/-- The service-account hydration step of `Store.loadConfig`: builds the
store-side account from a configuration record. The source computes
`AccountEnabled: csa.AccountEnabled || true` and
`ServicePrincipal: csa.ServicePrincipal || true`. -/
def hydrateServiceAccount (csa : FullConfigServiceAcc) : ServiceAccount :=
  { id := csa.id
    applicationId := csa.applicationId
    displayName := csa.displayName
    description := csa.description
    accountEnabled := csa.accountEnabled || true
    permissions := csa.permissions
    servicePrincipal := csa.servicePrincipal || true
    graphPermissions := csa.graphPermissions }

/-- The secret-extraction step of `Store.loadConfig`. -/
def secretOfConfig (csa : FullConfigServiceAcc) : ServiceAccountSecret :=
  { applicationId := csa.applicationId
    secret := csa.secret
    displayName := csa.displayName
    description := csa.description
    graphPermissions := csa.graphPermissions }

/-- `Store.loadConfig` on the service-account section: hydrated accounts in
configuration order. -/
def loadServiceAccounts (cfg : List FullConfigServiceAcc) :
    List ServiceAccount :=
  cfg.map hydrateServiceAccount

/-- `Store.loadConfig` on the service-account section: credential records in
configuration order. -/
def loadSecrets (cfg : List FullConfigServiceAcc) :
    List ServiceAccountSecret :=
  cfg.map secretOfConfig

/-- Bearer-token core of `Store.authenticateServiceAccount`: the header has
already been split as `Bearer <token>`. Tokens of shape
`mock_access_token_<clientID>` resolve to the first enabled account with
that application id; everything else fails. -/
def authenticateBearer (accounts : List ServiceAccount) (token : String) :
    Option ServiceAccount :=
  if token.startsWith "mock_access_token_" then
    let clientID := token.drop "mock_access_token_".length
    accounts.find? (fun sa => sa.applicationId = clientID ∧ sa.accountEnabled)
  else
    none

/-- Basic-credential core of `Store.authenticateServiceAccount`: the header
has already been base64-decoded and split at the first colon (transport
decoding is not otherwise modelled). The secret table gives the expected
secret of the first record with the application id; an empty or mismatched
secret fails; on success the first enabled account with the id is
returned. -/
def authenticateBasic (secrets : List ServiceAccountSecret)
    (accounts : List ServiceAccount) (appID secret : String) :
    Option ServiceAccount :=
  let validSecret :=
    match secrets.find? (fun sec => sec.applicationId = appID) with
    | some sec => sec.secret
    | none => ""
  if validSecret = "" ∨ validSecret ≠ secret then
    none
  else
    accounts.find? (fun sa => sa.applicationId = appID ∧ sa.accountEnabled)

/-! ### Base64url and the unsigned JWT (makeUnsignedJWT) -/

/-- The base64url alphabet used by Go `base64.URLEncoding`. -/
def b64Table : List Char :=
  "ABCDEFGHIJKLMNOPQRSTUVWXYZabcdefghijklmnopqrstuvwxyz0123456789-_".data

/-- Character for one 6-bit index (the default is never produced for
indices below 64). -/
def b64Char (n : Nat) : Char := b64Table.getD n '='

/-- Base64url encoding of a byte list. Go pads with `=` and the caller
trims the padding with `TrimRight`; since `=` occurs only as final
padding, encoding without padding is the identical string. -/
def b64Chunks : List UInt8 → List Char
  | [] => []
  | [b1] =>
    [b64Char (b1.toNat / 4), b64Char (b1.toNat % 4 * 16)]
  | [b1, b2] =>
    [b64Char (b1.toNat / 4), b64Char (b1.toNat % 4 * 16 + b2.toNat / 16),
     b64Char (b2.toNat % 16 * 4)]
  | b1 :: b2 :: b3 :: rest =>
    b64Char (b1.toNat / 4) :: b64Char (b1.toNat % 4 * 16 + b2.toNat / 16) ::
      b64Char (b2.toNat % 16 * 4 + b3.toNat / 64) :: b64Char (b3.toNat % 64) ::
      b64Chunks rest

/-- UTF-8 encoding of one character. -/
def utf8Bytes (c : Char) : List UInt8 :=
  let n := c.toNat
  if n < 0x80 then [UInt8.ofNat n]
  else if n < 0x800 then
    [UInt8.ofNat (0xC0 + n / 0x40), UInt8.ofNat (0x80 + n % 0x40)]
  else if n < 0x10000 then
    [UInt8.ofNat (0xE0 + n / 0x1000), UInt8.ofNat (0x80 + n / 0x40 % 0x40),
     UInt8.ofNat (0x80 + n % 0x40)]
  else
    [UInt8.ofNat (0xF0 + n / 0x40000), UInt8.ofNat (0x80 + n / 0x1000 % 0x40),
     UInt8.ofNat (0x80 + n / 0x40 % 0x40), UInt8.ofNat (0x80 + n % 0x40)]

/-- UTF-8 bytes of a string. -/
def strBytes (s : String) : List UInt8 := s.data.flatMap utf8Bytes

/-- The `b64url` helper of main_test.go (base64url, padding trimmed). -/
def b64url (s : String) : String := String.mk (b64Chunks (strBytes s))

/-- JSON escaping of one character as Go `encoding/json` performs it
(quote, backslash, the common control characters and the HTML-escaped
`<`, `>`, `&`). -/
def jsonEscapeChar (c : Char) : List Char :=
  if c = '"' then ['\\', '"']
  else if c = '\\' then ['\\', '\\']
  else if c = '\n' then ['\\', 'n']
  else if c = '\r' then ['\\', 'r']
  else if c = '\t' then ['\\', 't']
  else if c = '<' then "\\u003c".data
  else if c = '>' then "\\u003e".data
  else if c = '&' then "\\u0026".data
  else if c.toNat < 0x20 then
    ("\\u00" ++ String.mk [Nat.digitChar (c.toNat / 16),
      Nat.digitChar (c.toNat % 16)]).data
  else [c]

/-- JSON string literal. -/
def jsonStr (s : String) : String :=
  "\"" ++ String.mk (s.data.flatMap jsonEscapeChar) ++ "\""

/-- The claims passed by the token endpoint to `makeUnsignedJWT`. -/
structure IdTokenClaims where
  iss : String
  aud : String
  sub : String
  email : String
  name : String
  givenName : String
  familyName : String
  iat : Int
  exp : Int
deriving DecidableEq, Repr

/-- Go `json.Marshal` of the claims map; map keys are serialized in sorted
order (aud, email, exp, family_name, given_name, iat, iss, name, sub). -/
def claimsJson (c : IdTokenClaims) : String :=
  "\x7b\"aud\":" ++ jsonStr c.aud ++
    ",\"email\":" ++ jsonStr c.email ++
    ",\"exp\":" ++ toString c.exp ++
    ",\"family_name\":" ++ jsonStr c.familyName ++
    ",\"given_name\":" ++ jsonStr c.givenName ++
    ",\"iat\":" ++ toString c.iat ++
    ",\"iss\":" ++ jsonStr c.iss ++
    ",\"name\":" ++ jsonStr c.name ++
    ",\"sub\":" ++ jsonStr c.sub ++ "\x7d"

/-- Go `json.Marshal` of the fixed JWT header map. -/
def headerJson : String := "\x7b\"alg\":\"none\",\"typ\":\"JWT\"\x7d"

/-- `makeUnsignedJWT` from main_test.go: base64url header, a dot, base64url
claims, a trailing dot, no signature. -/
def makeUnsignedJWT (c : IdTokenClaims) : String :=
  b64url headerJson ++ "." ++ b64url (claimsJson c) ++ "."

/-- Splitting a character list at every occurrence of a separator
(the semantics of Go `strings.Split` on one-character separators). -/
def splitChar (sep : Char) : List Char → List (List Char)
  | [] => [[]]
  | c :: rest =>
    match splitChar sep rest with
    | [] => [[]]
    | s :: ss => if c = sep then [] :: s :: ss else (c :: s) :: ss

/-- Number of dot-separated segments of a string. -/
def dotSegmentCount (s : String) : Nat := (splitChar '.' s.data).length

/-! ### The OAuth2 state machine (authorize and token endpoints) -/

/-- `AuthCode` from main_test.go (the `time.Time` issue instant becomes a
`Nat` tick; no modelled behavior compares times). -/
structure AuthCode where
  code : String
  clientID : String
  redirectURI : String
  scope : String
  userSub : String
  issuedAt : Nat
deriving DecidableEq, Repr

/-- `RegisteredClient` from main_test.go. -/
structure RegisteredClient where
  clientID : String
  clientSecret : String
  redirectURIs : List String
  scopes : List String
  name : String
deriving DecidableEq, Repr

/-- The fields of `MockUser` that the identity endpoints read. -/
structure MockUser where
  id : String
  displayName : String
  userPrincipalName : String
  mail : String
deriving DecidableEq, Repr

/-- The process-wide `Store` restricted to the fields the modelled
endpoints touch. -/
structure Store where
  users : List MockUser
  serviceAccounts : List ServiceAccount
  config : List ServiceAccountSecret
  clients : List (String × RegisteredClient)
  codes : List (String × AuthCode)
deriving DecidableEq, Repr

/-- Observable outcome of the authorize handler. -/
inductive AuthorizeResult where
  /-- 400 "invalid authorize request" -/
  | invalidRequest
  /-- 400 "unauthorized redirect_uri" -/
  | unauthorizedRedirect
  /-- the user-selection page; no state is created -/
  | selectionPrompt
  /-- 302 redirect carrying the issued code (and the state, if given) -/
  | redirectWithCode (code : String) (state : String)
  /-- 400 "invalid redirect_uri" (`url.Parse` failed; the code was already
  stored) -/
  | invalidRedirect
deriving DecidableEq, Repr

/-- The `/oauth2/v2.0/authorize` handler. `now` stands for
`time.Now().UnixNano()`; `redirectParses` stands for `url.Parse(redirectURI)`
succeeding (URL syntax itself is not modelled — the parse happens after the
code is stored, exactly as in the source). -/
def authorizeEndpoint (s : Store)
    (clientID redirectURI state responseType scope userID : String)
    (now : Nat) (redirectParses : Bool) : AuthorizeResult × Store :=
  if clientID = "" ∨ redirectURI = "" ∨ responseType ≠ "code" then
    (.invalidRequest, s)
  else
    let redirectValid : Bool :=
      match mapLookup s.clients clientID with
      | some c => decide (c.redirectURIs = [] ∨ redirectURI ∈ c.redirectURIs)
      | none => true
    if redirectValid = false then
      (.unauthorizedRedirect, s)
    else if userID = "" then
      (.selectionPrompt, s)
    else
      let code := "code_" ++ toString now
      let ac : AuthCode :=
        { code := code, clientID := clientID, redirectURI := redirectURI,
          scope := scope, userSub := userID, issuedAt := now }
      let s2 := { s with codes := mapInsert s.codes code ac }
      if redirectParses then (.redirectWithCode code state, s2)
      else (.invalidRedirect, s2)

/-- JSON body of the token endpoint on success. -/
structure TokenResponse where
  accessToken : String
  tokenType : String
  expiresIn : Nat
  refreshToken : Option String
  scope : Option String
  idToken : Option String
deriving DecidableEq, Repr

/-- Observable outcome of the token handler. -/
inductive TokenResult where
  | ok (resp : TokenResponse)
  | err (status : Nat) (message : String)
deriving DecidableEq, Repr

/-- The user-profile resolution of the token endpoint: email, name, given
name, family name. Defaults apply when the subject is unknown; a found
user contributes the principal name and display name, and the display name
is split into whitespace-separated fields (`strings.Fields`) for the
given/family names, keeping each default when too few fields exist. -/
def resolveUserClaims (users : List MockUser) (sub : String) :
    String × String × String × String :=
  match users.find? (fun u => u.id = sub) with
  | none => ("unknown@dev.local", "Unknown User", "Unknown", "User")
  | some u =>
    let nameParts := (u.displayName.splitOn " ").filter (fun p => p ≠ "")
    let givenName := match nameParts with
      | [] => "Unknown"
      | p :: _ => p
    let familyName := match nameParts with
      | [] => "User"
      | [_] => "User"
      | _ :: rest => " ".intercalate rest
    (u.userPrincipalName, u.displayName, givenName, familyName)

/-- The form-encoded `/oauth2/v2.0/token` handler (POST with
`application/x-www-form-urlencoded`). `iss` stands for `baseURL(r)` and
`now` for `time.Now().Unix()`. The `client_credentials` grant authenticates
against the secret table and returns only an access token; every other
grant redeems `code` from the code table, deleting it before the response
is built. -/
def tokenFormEndpoint (s : Store)
    (grantType clientID clientSecret scope code iss : String) (now : Nat) :
    TokenResult × Store :=
  if grantType = "client_credentials" then
    let authenticated := s.config.any (fun sec =>
      sec.applicationId = clientID ∧ sec.secret = clientSecret)
    if authenticated then
      (.ok { accessToken := "mock_access_token_" ++ clientID,
             tokenType := "Bearer", expiresIn := 3600,
             refreshToken := none, scope := some scope, idToken := none }, s)
    else
      (.err 401 "invalid_client", s)
  else if code = "" then
    (.err 400 "code or grant_type required", s)
  else
    match mapLookup s.codes code with
    | none => (.err 400 "invalid code", s)
    | some ac =>
      let s2 := { s with codes := mapErase s.codes code }
      let profile := resolveUserClaims s.users ac.userSub
      let claims : IdTokenClaims :=
        { iss := iss, aud := ac.clientID, sub := ac.userSub,
          email := profile.1, name := profile.2.1,
          givenName := profile.2.2.1, familyName := profile.2.2.2,
          iat := now, exp := now + 3600 }
      (.ok { accessToken := "mock_access_token_" ++ code,
             tokenType := "Bearer", expiresIn := 3600,
             refreshToken := some ("mock_refresh_token_" ++ code),
             scope := some ac.scope,
             idToken := some (makeUnsignedJWT claims) }, s2)

/-! ### ARM virtual-machine mapper (internal/mappers) -/

/-- The per-virtual-machine map built by `Store.GetVMs` for the mappers.
The `status` field is an `Option` to model the `vm["status"].(string)` type
assertion in `convertVMToARMFormat` (`GetVMs` always stores a string). -/
structure VMMap where
  id : String
  name : String
  resourceGroup : String
  location : String
  vmSize : String
  osType : String
  provisioningState : String
  powerState : String
  status : Option String
  tags : List (String × String)
deriving DecidableEq, Repr

/-- One entry of `properties.instanceView.statuses`. -/
structure InstanceViewStatus where
  code : String
  level : String
  displayStatus : String
deriving DecidableEq, Repr

/-- The `properties` object assembled by `convertVMToARMFormat`
(`hardwareProfile.vmSize` and `storageProfile.osDisk.osType` flattened to
their single leaves). -/
structure ARMVMProperties where
  vmId : String
  provisioningState : String
  vmSize : String
  osType : String
  instanceView : Option (List InstanceViewStatus)
deriving DecidableEq, Repr

/-- The ARM-shaped virtual-machine payload. -/
structure ARMVM where
  id : String
  name : String
  type : String
  location : String
  tags : List (String × String)
  properties : ARMVMProperties
deriving DecidableEq, Repr

/-- ASCII case folding of one character (`strings.ToLower`; the statuses
this server lowercases are ASCII). -/
def charToLower (c : Char) : Char :=
  if 'A' ≤ c ∧ c ≤ 'Z' then Char.ofNat (c.toNat + 32) else c

/-- `strings.ToLower` on ASCII strings. -/
def goToLower (s : String) : String := String.mk (s.data.map charToLower)

/-- `convertVMToARMFormat`: nested ARM payload; the instance-view block is
added whenever the internal `status` field is present as a string, with
the power-state code derived from it (`stopped` becomes
`PowerState/deallocated`, anything else `PowerState/<status>`). -/
def convertVMToARMFormat (vm : VMMap) : ARMVM :=
  { id := vm.id, name := vm.name,
    type := "Microsoft.Compute/virtualMachines",
    location := vm.location, tags := vm.tags,
    properties :=
      { vmId := vm.id, provisioningState := vm.provisioningState,
        vmSize := vm.vmSize, osType := vm.osType,
        instanceView :=
          match vm.status with
          | some status =>
            some [{ code := if status = "stopped" then
                      "PowerState/deallocated"
                    else "PowerState/" ++ status,
                    level := "Info", displayStatus := vm.powerState },
                  { code := "ProvisioningState/" ++ vm.provisioningState,
                    level := "Info",
                    displayStatus :=
                      "Provisioning " ++ goToLower vm.provisioningState }]
          | none => none } }

/-- Successful payload of the virtual-machines mapper: a bare object for a
detail lookup, a value list for a list request. -/
inductive ARMVMResult where
  | single (vm : ARMVM)
  | list (vms : List ARMVM)
deriving DecidableEq, Repr

/-- Reading a Go `map[string]string` with the zero value for a missing
key. -/
def paramsGet (params : List (String × String)) (k : String) : String :=
  match mapLookup params k with
  | some v => v
  | none => ""

/-- The GET branch of `mapVirtualMachinesResponse`: a non-empty `vmName`
parameter selects the first machine with that name (and matching resource
group when one is given) or fails with a not-found error; otherwise the
list of machines, filtered by the optional resource group, is returned. -/
def mapVirtualMachinesResponseGET (vms : List VMMap)
    (params : List (String × String)) : Except String ARMVMResult :=
  let vmName := paramsGet params "vmName"
  let resourceGroup := paramsGet params "resourceGroupName"
  if vmName ≠ "" then
    match vms.find? (fun vm => vm.name = vmName ∧
        (resourceGroup = "" ∨ vm.resourceGroup = resourceGroup)) with
    | some vm => .ok (.single (convertVMToARMFormat vm))
    | none => .error ("virtual machine not found: " ++ vmName)
  else
    .ok (.list ((vms.filter (fun vm =>
      resourceGroup = "" ∨ vm.resourceGroup = resourceGroup)).map
        convertVMToARMFormat))

/-! ### Route generation from API documents (internal/routes) -/

/-- One operation descriptor of a loaded document (`openapi3.Operation`
`OperationID`/`Tags`, or Swagger 2 `spec.Operation` `ID`/`Tags`). -/
structure SpecOperation where
  operationId : String
  tags : List String
deriving DecidableEq, Repr

/-- Per-path operations by HTTP method (absent methods are `none`). -/
structure PathItemOps where
  get : Option SpecOperation
  post : Option SpecOperation
  put : Option SpecOperation
  delete : Option SpecOperation
  patch : Option SpecOperation
deriving DecidableEq, Repr

/-- A generated `Route` (the bound handler delegates to the generic
request handler and carries no information of its own). -/
structure Route where
  method : String
  path : String
  operationId : String
  tags : List String
deriving DecidableEq, Repr

/-- The declared (method, operation) pairs of one path item, in the fixed
method order GET, POST, PUT, DELETE, PATCH (Go iterates its literal
operations map in unspecified order; no modelled property depends on the
order). -/
def opsOf (item : PathItemOps) : List (String × SpecOperation) :=
  [("GET", item.get), ("POST", item.post), ("PUT", item.put),
   ("DELETE", item.delete), ("PATCH", item.patch)].filterMap
    (fun p => p.2.map (fun op => (p.1, op)))

/-- `generateFromOpenAPI3`: one route per declared (path, method); the
operation id is copied verbatim from the document. -/
def generateFromOpenAPI3 (paths : List (String × PathItemOps)) :
    List Route :=
  paths.flatMap (fun pi =>
    (opsOf pi.2).map (fun mo =>
      { method := mo.1, path := pi.1, operationId := mo.2.operationId,
        tags := mo.2.tags }))

/-- `strings.ReplaceAll(pathPattern, "/", "_")`. -/
def replaceSlashes (s : String) : String :=
  String.mk (s.data.map (fun c => if c = '/' then '_' else c))

/-- `generateFromSwagger2`: one route per declared (path, method); an empty
operation id is synthesized as `method + "_" + path` with slashes replaced
by underscores. -/
def generateFromSwagger2 (paths : List (String × PathItemOps)) :
    List Route :=
  paths.flatMap (fun pi =>
    (opsOf pi.2).map (fun mo =>
      { method := mo.1, path := pi.1,
        operationId :=
          if mo.2.operationId = "" then
            mo.1 ++ "_" ++ replaceSlashes pi.1
          else mo.2.operationId,
        tags := mo.2.tags }))

/-! ### The path-pattern matcher `MatchPath`

`MatchPath` in Go replaces every `{name}` placeholder of the pattern by
the regex group `([^/]+)`, anchors the result with `^`/`$`, and matches
the request path, extracting one captured segment per placeholder. The
embedding compiles the pattern to a list of atoms — a literal character,
the regex metacharacter `.` (any character but a newline), or a group
`([^/]+)` (one or more non-slash characters, greedy) — which is the exact
regex the source builds for patterns whose characters include no other
regex metacharacter (no backslash, parentheses, brackets, `*`, `+`, `?`,
`^`, `$`, `|`); the documents loaded by this server use only such
patterns. The matcher below implements anchored matching of that atom
list with leftmost-greedy capture semantics, which is what Go `regexp`
(RE2) produces for these expressions. -/

/-- One atom of the compiled pattern regex. -/
inductive Atom where
  | lit (c : Char)
  | dot
  | grp (name : List Char)
deriving DecidableEq, Repr

/-- Fueled scanner: `{name}` with a non-empty brace-free name becomes a
group (Go regex `([^/]+)` via the placeholder search `\x7b([^\x7d]+)\x7d`),
`.` becomes the any-character atom, everything else a literal. The fuel is
always called with at least the list length. -/
def compileAtomsF : Nat → List Char → List Atom
  | 0, _ => []
  | _ + 1, [] => []
  | f + 1, c :: rest =>
    if c = '\x7b' then
      let name := rest.takeWhile (fun d => d ≠ '\x7d')
      if name.length < rest.length ∧ name ≠ [] then
        Atom.grp name :: compileAtomsF f (rest.drop (name.length + 1))
      else
        Atom.lit c :: compileAtomsF f rest
    else if c = '.' then Atom.dot :: compileAtomsF f rest
    else Atom.lit c :: compileAtomsF f rest

/-- Pattern compilation (see `compileAtomsF`). -/
def compileAtoms (cs : List Char) : List Atom := compileAtomsF cs.length cs

/-- Greedy matching of one `([^/]+)` group: try the longest candidate
capture first (`k` counts down from the length of the maximal slash-free
prefix), continue with the rest of the match on the remaining input. -/
def tryGroup (m : List Char → Option (List (List Char))) (s : List Char) :
    Nat → Option (List (List Char))
  | 0 => none
  | k + 1 =>
    match m (s.drop (k + 1)) with
    | some caps => some (s.take (k + 1) :: caps)
    | none => tryGroup m s k

/-- Fueled anchored matcher for an atom list; returns the group captures
in order on success. The fuel is always called with more than the atom
count. -/
def matchAtoms : Nat → List Atom → List Char → Option (List (List Char))
  | 0, _, _ => none
  | _ + 1, [], s => if s.isEmpty then some [] else none
  | f + 1, Atom.lit c :: as, s =>
    match s with
    | [] => none
    | d :: ds => if d = c then matchAtoms f as ds else none
  | f + 1, Atom.dot :: as, s =>
    match s with
    | [] => none
    | d :: ds => if d = '\n' then none else matchAtoms f as ds
  | f + 1, Atom.grp _ :: as, s =>
    tryGroup (matchAtoms f as) s ((s.takeWhile (fun c => c ≠ '/')).length)

/-- Anchored match of an atom list against an input. -/
def runMatch (as : List Atom) (s : List Char) :
    Option (List (List Char)) :=
  matchAtoms (as.length + 1) as s

/-- The placeholder names of a compiled pattern, in order (Go collects
them positionally from the placeholder search). -/
def atomNames : List Atom → List String
  | [] => []
  | Atom.grp n :: rest => String.mk n :: atomNames rest
  | _ :: rest => atomNames rest

/-- `MatchPath` from internal/routes: `(ok, params)`; a non-match returns
`(false, nil)`. Parameters are the captures zipped positionally with the
placeholder names (Go stores them into a map, so with a duplicated
placeholder name the later binding is the one a lookup sees). -/
def MatchPath (pattern requestPath : String) :
    Bool × List (String × String) :=
  let atoms := compileAtoms pattern.data
  match runMatch atoms requestPath.data with
  | none => (false, [])
  | some caps => (true, (atomNames atoms).zip (caps.map String.mk))

/-- The name of a whole-segment placeholder: the segment is exactly
`{name}` with a non-empty name that stops at the closing brace. -/
def paramNameOfSeg (seg : List Char) : Option (List Char) :=
  match seg with
  | c :: rest =>
    if c = '\x7b' ∧
        (rest.takeWhile (fun d => d ≠ '\x7d')).length + 1 = rest.length ∧
        rest.takeWhile (fun d => d ≠ '\x7d') ≠ [] then
      some (rest.takeWhile (fun d => d ≠ '\x7d'))
    else none
  | [] => none

/-- The atoms one well-formed segment compiles to: a single group for a
placeholder, literal atoms for a literal. -/
def segAtoms (seg : List Char) : List Atom :=
  match paramNameOfSeg seg with
  | some n => [Atom.grp n]
  | none => seg.map Atom.lit

/-- Segment atom lists joined by the literal slash separator. -/
def atomsJoin (xss : List (List Atom)) : List Atom :=
  List.intercalate [Atom.lit '/'] xss

/-- Characters that are neither separators, braces, nor regex
metacharacters. -/
def plainChar (c : Char) : Bool :=
  ¬ (c = '/' ∨ c = '\x7b' ∨ c = '\x7d' ∨ c = '.' ∨ c = '\\' ∨ c = '(' ∨
     c = ')' ∨ c = '[' ∨ c = ']' ∨ c = '*' ∨ c = '+' ∨ c = '?' ∨ c = '^' ∨
     c = '$' ∨ c = '|' ∨ c = '\n')

/-- A well-formed pattern segment: a whole placeholder or a plain
literal. -/
def wfSeg (seg : List Char) : Bool :=
  (paramNameOfSeg seg).isSome ∨ seg.all plainChar

/-- A well-formed pattern: every slash-separated segment is a whole
placeholder or a plain literal. -/
def wfPattern (p : List Char) : Bool := (splitChar '/' p).all wfSeg

/-- Segment-level matching condition of the code: a placeholder segment
requires a non-empty counterpart, a literal segment equality. -/
def segOK (pseg rseg : List Char) : Bool :=
  match paramNameOfSeg pseg with
  | some _ => ¬ rseg.isEmpty
  | none => pseg = rseg

/-- Pointwise matching condition over the two segment lists (equal
lengths required). -/
def segsOK : List (List Char) → List (List Char) → Bool
  | [], [] => true
  | p :: ps, q :: qs => segOK p q && segsOK ps qs
  | _, _ => false

/-- The path segments at placeholder positions, in order. -/
def segsCaps : List (List Char) → List (List Char) → List (List Char)
  | p :: ps, q :: qs =>
    (match paramNameOfSeg p with
     | some _ => (q :: segsCaps ps qs)
     | none => segsCaps ps qs)
  | _, _ => []

/-- The placeholder names of the segment list, in order. -/
def segsNames : List (List Char) → List String
  | [] => []
  | p :: ps =>
    (match paramNameOfSeg p with
     | some n => (String.mk n :: segsNames ps)
     | none => segsNames ps)

/-- The matching condition exactly as the specification sentence states
it (modelled from the claim, for comparison with `MatchPath`): equal
segment counts, and every literal segment equal to its counterpart —
with no constraint on placeholder segments. -/
def segsOKClaim : List (List Char) → List (List Char) → Bool
  | [], [] => true
  | p :: ps, q :: qs =>
    (match paramNameOfSeg p with
     | some _ => true
     | none => p = q : Bool) && segsOKClaim ps qs
  | _, _ => false

/-- The claim-side matching condition on strings. -/
def specSegmentCondition (pattern requestPath : String) : Bool :=
  segsOKClaim (splitChar '/' pattern.data) (splitChar '/' requestPath.data)

/-! ### The dispatch handlers of RegisterRoutes (internal/routes) -/

/-- Observable answer of a dispatch handler. -/
inductive DispatchResponse where
  | handled (operationId : String) (params : List (String × String))
  | notFound
  | methodNotAllowed
deriving DecidableEq, Repr

/-- The per-group catch-all handler `RegisterRoutes` installs for
parameterized routes: the first route whose method and pattern both match
wins; otherwise 404 Not Found. -/
def groupHandler (routes : List Route) (method path : String) :
    DispatchResponse :=
  match routes.find? (fun rt =>
      method = rt.method ∧ (MatchPath rt.path path).1 = true) with
  | some rt => .handled rt.operationId (MatchPath rt.path path).2
  | none => .notFound

/-- `createRouteHandler`: the handler installed for an exact-path route;
a method mismatch answers 405 Method Not Allowed before the path is
examined. -/
def createRouteHandler (rt : Route) (method path : String) :
    DispatchResponse :=
  if method ≠ rt.method then .methodNotAllowed
  else if (MatchPath rt.path path).1 = false then .notFound
  else .handled rt.operationId (MatchPath rt.path path).2

end Mockzure

namespace Mockzure

/-! ### Theorems for claims C3 and C9 -/

/-- C3: `hasPermission S s v` is true iff some entry of the permission set
has resource group `s` or the wildcard and lists the verb `v` or the
wildcard. The empty-set and absence-is-deny parts of the claim are the
right-to-left emptiness of the existential. -/
theorem hasPermission_iff (sa : ServiceAccount) (s v : String) :
    (hasPermission sa s v = true ↔
      ∃ perm ∈ sa.permissions,
        (perm.resourceGroup = s ∨ perm.resourceGroup = "*") ∧
          ∃ p ∈ perm.permissions, p = v ∨ p = "*") ∧
    hasPermission { sa with permissions := [] } s v = false := by
  constructor
  · unfold hasPermission
    rw [List.any_eq_true]
    constructor
    · rintro ⟨perm, hmem, hperm⟩
      by_cases hrg : perm.resourceGroup ≠ "*" ∧ perm.resourceGroup ≠ s
      · simp [hrg] at hperm
      · rw [if_neg hrg] at hperm
        rw [List.any_eq_true] at hperm
        obtain ⟨p, hp, hpv⟩ := hperm
        refine ⟨perm, hmem, ?_, p, hp, by simpa using hpv⟩
        by_cases h1 : perm.resourceGroup = "*"
        · exact Or.inr h1
        · by_cases h2 : perm.resourceGroup = s
          · exact Or.inl h2
          · exact absurd ⟨h1, h2⟩ hrg
    · rintro ⟨perm, hmem, hrg, p, hp, hpv⟩
      refine ⟨perm, hmem, ?_⟩
      have hrg2 : ¬(perm.resourceGroup ≠ "*" ∧ perm.resourceGroup ≠ s) := by
        rcases hrg with h | h
        · intro hc; exact hc.2 h
        · intro hc; exact hc.1 h
      rw [if_neg hrg2, List.any_eq_true]
      exact ⟨p, hp, by simpa using hpv⟩
  · rfl

/-! ### Helper lemmas on the map model -/

theorem mapLookup_insert {V : Type} (m : List (String × V)) (k : String)
    (v : V) : mapLookup (mapInsert m k v) k = some v := by
  simp [mapLookup, mapInsert, List.find?]

theorem mapLookup_erase {V : Type} (m : List (String × V)) (k : String) :
    mapLookup (mapErase m k) k = none := by
  unfold mapLookup mapErase
  rw [Option.map_eq_none']
  rw [List.find?_eq_none]
  intro x hx
  have hne := List.of_mem_filter hx
  simp at hne ⊢
  exact hne

/-! ### Theorem for claim C9 -/

/-- C9: hydration forces `accountEnabled` to `true` (`csa.AccountEnabled ||
true`), the enabled-principal check of authentication is vacuous on
hydrated accounts, and turning `accountEnabled` off in configuration
changes neither bearer nor basic authentication. -/
theorem config_accountEnabled_ignored :
    (∀ csa : FullConfigServiceAcc,
        (hydrateServiceAccount csa).accountEnabled = true) ∧
    (∀ (cfg : List FullConfigServiceAcc) (c : String),
        (loadServiceAccounts cfg).find?
            (fun sa => sa.applicationId = c ∧ sa.accountEnabled)
          = (loadServiceAccounts cfg).find? (fun sa => sa.applicationId = c)) ∧
    (∀ (cfg : List FullConfigServiceAcc) (tok : String),
        authenticateBearer
            (loadServiceAccounts
              (cfg.map (fun csa => { csa with accountEnabled := false }))) tok
          = authenticateBearer (loadServiceAccounts cfg) tok) ∧
    (∀ (cfg : List FullConfigServiceAcc) (appID secret : String),
        authenticateBasic
            (loadSecrets
              (cfg.map (fun csa => { csa with accountEnabled := false })))
            (loadServiceAccounts
              (cfg.map (fun csa => { csa with accountEnabled := false })))
            appID secret
          = authenticateBasic (loadSecrets cfg) (loadServiceAccounts cfg)
              appID secret) := by
  have hh : ∀ csa : FullConfigServiceAcc,
      hydrateServiceAccount { csa with accountEnabled := false }
        = hydrateServiceAccount csa := by
    intro csa; simp [hydrateServiceAccount]
  have hload : ∀ cfg : List FullConfigServiceAcc,
      loadServiceAccounts (cfg.map (fun csa =>
        { csa with accountEnabled := false })) = loadServiceAccounts cfg := by
    intro cfg
    simp only [loadServiceAccounts, List.map_map]
    exact List.map_congr_left (fun csa _ => hh csa)
  have hsec : ∀ cfg : List FullConfigServiceAcc,
      loadSecrets (cfg.map (fun csa =>
        { csa with accountEnabled := false })) = loadSecrets cfg := by
    intro cfg
    simp only [loadSecrets, List.map_map]
    exact List.map_congr_left (fun csa _ => rfl)
  refine ⟨fun csa => by simp [hydrateServiceAccount], ?_,
    fun cfg tok => by rw [hload], fun cfg appID secret => by rw [hload, hsec]⟩
  intro cfg c
  induction cfg with
  | nil => rfl
  | cons csa rest ih =>
    have he : (hydrateServiceAccount csa).accountEnabled = true := by
      simp [hydrateServiceAccount]
    by_cases h : (hydrateServiceAccount csa).applicationId = c
    · simp [loadServiceAccounts, List.find?, h, he]
    · simpa [loadServiceAccounts, List.find?, h, he] using ih

/-! ### Theorem and witness for claim C1 -/

/-- C1: redeeming an authorization code via the form-encoded token endpoint
with grant type `authorization_code` succeeds, leaves the code absent from
the table, and a second redemption of the same code answers 400 "invalid
code". -/
theorem authCode_single_use (s : Store)
    (clientID clientSecret scope c iss iss2 : String) (now now2 : Nat)
    (ac : AuthCode) (hc : c ≠ "") (h : mapLookup s.codes c = some ac) :
    (∃ resp, (tokenFormEndpoint s "authorization_code" clientID clientSecret
        scope c iss now).1 = .ok resp) ∧
    mapLookup ((tokenFormEndpoint s "authorization_code" clientID clientSecret
        scope c iss now).2).codes c = none ∧
    (tokenFormEndpoint
        ((tokenFormEndpoint s "authorization_code" clientID clientSecret
          scope c iss now).2)
        "authorization_code" clientID clientSecret scope c iss2 now2).1
      = .err 400 "invalid code" := by
  have e : tokenFormEndpoint s "authorization_code" clientID clientSecret
      scope c iss now
      = (.ok { accessToken := "mock_access_token_" ++ c, tokenType := "Bearer",
               expiresIn := 3600,
               refreshToken := some ("mock_refresh_token_" ++ c),
               scope := some ac.scope,
               idToken := some (makeUnsignedJWT
                 { iss := iss, aud := ac.clientID, sub := ac.userSub,
                   email := (resolveUserClaims s.users ac.userSub).1,
                   name := (resolveUserClaims s.users ac.userSub).2.1,
                   givenName := (resolveUserClaims s.users ac.userSub).2.2.1,
                   familyName := (resolveUserClaims s.users ac.userSub).2.2.2,
                   iat := (now : Int), exp := (now : Int) + 3600 }) },
         { s with codes := mapErase s.codes c }) := by
    simp [tokenFormEndpoint, h, hc]
  rw [e]
  have h2 : mapLookup (mapErase s.codes c) c = none := mapLookup_erase s.codes c
  refine ⟨⟨_, rfl⟩, by simpa using h2, ?_⟩
  simp [tokenFormEndpoint, h2, hc]

/-- Concrete instance of `authCode_single_use`. -/
theorem authCode_single_use_witness :
    (∃ resp, (tokenFormEndpoint
        ⟨[], [], [], [], [("c1", ⟨"c1", "app", "u", "sc", "u1", 0⟩)]⟩
        "authorization_code" "" "" "" "c1" "http://local" 7).1 = .ok resp) ∧
    mapLookup ((tokenFormEndpoint
        ⟨[], [], [], [], [("c1", ⟨"c1", "app", "u", "sc", "u1", 0⟩)]⟩
        "authorization_code" "" "" "" "c1" "http://local" 7).2).codes "c1"
      = none ∧
    (tokenFormEndpoint
        ((tokenFormEndpoint
          ⟨[], [], [], [], [("c1", ⟨"c1", "app", "u", "sc", "u1", 0⟩)]⟩
          "authorization_code" "" "" "" "c1" "http://local" 7).2)
        "authorization_code" "" "" "" "c1" "http://local" 9).1
      = .err 400 "invalid code" :=
  authCode_single_use _ "" "" "" "c1" "http://local" "http://local" 7 9
    ⟨"c1", "app", "u", "sc", "u1", 0⟩ (by decide) rfl

/-! ### Theorem and witness for claim C6 -/

/-- C6: the `client_credentials` grant leaves the store unchanged, answers
200 with access token `mock_access_token_<applicationId>` and neither a
refresh token nor an id token when some stored credential record matches
the submitted pair, answers 401 otherwise, and its outcome never depends
on the authorization-code table. -/
theorem clientCredentials_grant (s : Store)
    (clientID clientSecret scope code iss : String) (now : Nat) :
    ((tokenFormEndpoint s "client_credentials" clientID clientSecret scope
        code iss now).2 = s) ∧
    ((∃ sec ∈ s.config,
        sec.applicationId = clientID ∧ sec.secret = clientSecret) →
      (tokenFormEndpoint s "client_credentials" clientID clientSecret scope
          code iss now).1
        = .ok { accessToken := "mock_access_token_" ++ clientID,
                tokenType := "Bearer", expiresIn := 3600,
                refreshToken := none, scope := some scope, idToken := none }) ∧
    ((¬ ∃ sec ∈ s.config,
        sec.applicationId = clientID ∧ sec.secret = clientSecret) →
      (tokenFormEndpoint s "client_credentials" clientID clientSecret scope
          code iss now).1 = .err 401 "invalid_client") ∧
    (∀ codes2 : List (String × AuthCode),
      (tokenFormEndpoint { s with codes := codes2 } "client_credentials"
          clientID clientSecret scope code iss now).1
        = (tokenFormEndpoint s "client_credentials" clientID clientSecret
            scope code iss now).1) := by
  by_cases hex : ∃ sec ∈ s.config,
      sec.applicationId = clientID ∧ sec.secret = clientSecret
  · exact ⟨by simp [tokenFormEndpoint, hex],
      fun _ => by simp [tokenFormEndpoint, hex],
      fun hne => absurd hex hne,
      fun codes2 => by simp [tokenFormEndpoint, hex]⟩
  · exact ⟨by simp [tokenFormEndpoint, hex],
      fun h => absurd h hex,
      fun _ => by simp [tokenFormEndpoint, hex],
      fun codes2 => by simp [tokenFormEndpoint, hex]⟩

/-- Concrete instance of `clientCredentials_grant`: a matching pair gets
the token, a wrong secret gets 401. -/
theorem clientCredentials_grant_witness :
    (tokenFormEndpoint
        ⟨[], [], [⟨"app1", "sec1", "", "", []⟩], [], []⟩
        "client_credentials" "app1" "sec1" "scp" "" "http://local" 3).1
      = .ok { accessToken := "mock_access_token_" ++ "app1",
              tokenType := "Bearer", expiresIn := 3600,
              refreshToken := none, scope := some "scp", idToken := none } ∧
    (tokenFormEndpoint
        ⟨[], [], [⟨"app1", "sec1", "", "", []⟩], [], []⟩
        "client_credentials" "app1" "wrong" "scp" "" "http://local" 3).1
      = .err 401 "invalid_client" :=
  ⟨(clientCredentials_grant _ "app1" "sec1" "scp" "" "http://local" 3).2.1
      ⟨⟨"app1", "sec1", "", "", []⟩, by decide, by decide, by decide⟩,
    (clientCredentials_grant _ "app1" "wrong" "scp" "" "http://local" 3).2.2.1
      (by decide)⟩

/-! ### Theorem and witness for claim C10 -/

/-- C10: an authorize request with a client id absent from the client
table skips redirect validation — it can never answer 400 "unauthorized
redirect_uri" and reaches the user-selection prompt (no user selected) or
code issuance (user selected); conversely that error is only ever answered
for a registered client whose non-empty redirect list misses the request's
target. -/
theorem authorize_unregistered_client_skips_redirect_validation (s : Store)
    (clientID redirectURI state responseType scope userID : String)
    (now : Nat) (rp : Bool) :
    (mapLookup s.clients clientID = none → clientID ≠ "" → redirectURI ≠ "" →
      responseType = "code" →
      ((authorizeEndpoint s clientID redirectURI state responseType scope
          userID now rp).1 ≠ .unauthorizedRedirect ∧
       (userID = "" →
         (authorizeEndpoint s clientID redirectURI state responseType scope
           userID now rp).1 = .selectionPrompt) ∧
       (userID ≠ "" →
         mapLookup ((authorizeEndpoint s clientID redirectURI state
             responseType scope userID now rp).2).codes
             ("code_" ++ toString now)
           = some { code := "code_" ++ toString now, clientID := clientID,
                    redirectURI := redirectURI, scope := scope,
                    userSub := userID, issuedAt := now }))) ∧
    ((authorizeEndpoint s clientID redirectURI state responseType scope
        userID now rp).1 = .unauthorizedRedirect →
      ∃ c, mapLookup s.clients clientID = some c ∧ c.redirectURIs ≠ [] ∧
        redirectURI ∉ c.redirectURIs) := by
  constructor
  · intro hnone hc hr hrt
    subst hrt
    constructor
    · by_cases hu : userID = ""
      · simp [authorizeEndpoint, hc, hr, hnone, hu]
      · cases rp <;> simp [authorizeEndpoint, hc, hr, hnone, hu]
    constructor
    · intro hu
      simp [authorizeEndpoint, hc, hr, hnone, hu]
    · intro hu
      cases rp <;>
        simp [authorizeEndpoint, hc, hr, hnone, hu, mapLookup_insert]
  · intro hres
    by_cases hbasics : clientID = "" ∨ redirectURI = "" ∨ responseType ≠ "code"
    · simp [authorizeEndpoint, hbasics] at hres
    · cases hcl : mapLookup s.clients clientID with
      | none =>
        by_cases hu : userID = ""
        · simp [authorizeEndpoint, hbasics, hcl, hu] at hres
        · cases rp <;> simp [authorizeEndpoint, hbasics, hcl, hu] at hres
      | some c =>
        refine ⟨c, rfl, ?_⟩
        by_cases hval : c.redirectURIs = [] ∨ redirectURI ∈ c.redirectURIs
        · exfalso
          by_cases hu : userID = ""
          · simp [authorizeEndpoint, hbasics, hcl, hval, hu] at hres
          · cases rp <;>
              simp [authorizeEndpoint, hbasics, hcl, hval, hu] at hres
        · push_neg at hval
          exact hval

/-- Concrete instance of
`authorize_unregistered_client_skips_redirect_validation`: an unregistered
client id proceeds to the selection prompt for an arbitrary redirect
target. -/
theorem authorize_unregistered_client_witness :
    (authorizeEndpoint ⟨[], [], [], [], []⟩ "ghost-client"
        "http://evil.example/cb" "st" "code" "openid" "" 11 true).1
      = .selectionPrompt :=
  ((authorize_unregistered_client_skips_redirect_validation
      ⟨[], [], [], [], []⟩ "ghost-client" "http://evil.example/cb" "st"
      "code" "openid" "" 11 true).1 rfl (by decide) (by decide) rfl).2.1 rfl

/-! ### Lemmas on base64url and dot segments (for claim C5) -/

theorem b64Char_ne_dot (n : Nat) : b64Char n ≠ '.' := by
  unfold b64Char
  by_cases h : n < b64Table.length
  · have hmem : b64Table.getD n '=' ∈ b64Table := by
      rw [List.getD_eq_getElem?_getD, List.getElem?_eq_getElem h,
        Option.getD_some]
      exact List.getElem_mem h
    intro hcon
    rw [hcon] at hmem
    revert hmem
    decide
  · rw [List.getD_eq_default _ _ (le_of_not_lt h)]
    decide

theorem b64Chunks_no_dot : ∀ bs : List UInt8, '.' ∉ b64Chunks bs
  | [] => by simp [b64Chunks]
  | [b1] => by
    intro hmem
    simp [b64Chunks] at hmem
    rcases hmem with h | h <;> exact b64Char_ne_dot _ h.symm
  | [b1, b2] => by
    intro hmem
    simp [b64Chunks] at hmem
    rcases hmem with h | h | h <;> exact b64Char_ne_dot _ h.symm
  | b1 :: b2 :: b3 :: rest => by
    intro hmem
    simp [b64Chunks] at hmem
    rcases hmem with h | h | h | h | h
    · exact b64Char_ne_dot _ h.symm
    · exact b64Char_ne_dot _ h.symm
    · exact b64Char_ne_dot _ h.symm
    · exact b64Char_ne_dot _ h.symm
    · exact b64Chunks_no_dot rest h

theorem b64url_no_dot (s : String) : '.' ∉ (b64url s).data := by
  simpa [b64url] using b64Chunks_no_dot (strBytes s)

theorem splitChar_ne_nil (sep : Char) (l : List Char) :
    splitChar sep l ≠ [] := by
  cases l with
  | nil => simp [splitChar]
  | cons c rest =>
    simp only [splitChar]
    cases h : splitChar sep rest with
    | nil => simp
    | cons s ss => by_cases hc : c = sep <;> simp [hc]

theorem splitChar_append_sep (sep : Char) (xs ys : List Char)
    (h : sep ∉ xs) :
    splitChar sep (xs ++ sep :: ys) = xs :: splitChar sep ys := by
  induction xs with
  | nil =>
    simp only [List.nil_append, splitChar]
    cases hys : splitChar sep ys with
    | nil => exact absurd hys (splitChar_ne_nil sep ys)
    | cons s ss => simp
  | cons x xs ih =>
    have hx : ¬ x = sep := by intro hc; exact h (by simp [hc])
    have hxs : sep ∉ xs := fun hc => h (List.mem_cons_of_mem _ hc)
    simp only [List.cons_append, splitChar, List.append_eq]
    rw [ih hxs]
    simp [hx]

/-- Every unsigned JWT the token endpoint emits has exactly three
dot-separated segments (the third one empty: no signature). -/
theorem dotSegmentCount_makeUnsignedJWT (c : IdTokenClaims) :
    dotSegmentCount (makeUnsignedJWT c) = 3 := by
  unfold dotSegmentCount makeUnsignedJWT
  have hdot : ("." : String).data = ['.'] := rfl
  rw [String.data_append, String.data_append, String.data_append, hdot]
  rw [List.append_assoc, List.append_assoc, List.singleton_append]
  rw [splitChar_append_sep _ _ _ (b64url_no_dot headerJson)]
  have : (b64url (claimsJson c)).data ++ '.' :: []
      = (b64url (claimsJson c)).data ++ '.' :: ([] : List Char) := rfl
  rw [show ((b64url (claimsJson c)).data ++ ['.'])
      = ((b64url (claimsJson c)).data ++ '.' :: ([] : List Char)) from rfl]
  rw [splitChar_append_sep _ _ _ (b64url_no_dot (claimsJson c))]
  rfl

/-! ### Theorem and witness for claim C5 -/

/-- C5: authorize (valid client, redirect target, response type `code`, a
registered user id) issues a code; redeeming that code at the token
endpoint yields an id token built by `makeUnsignedJWT` whose `sub` claim
is the supplied user id and whose `email`/`name` claims are the stored
`userPrincipalName`/`displayName` of that user, and the token has exactly
three dot-separated segments. -/
theorem authorize_token_roundtrip (s : Store)
    (clientID redirectURI state scope userID iss2 : String)
    (now now2 : Nat) (u : MockUser)
    (hc : clientID ≠ "") (hr : redirectURI ≠ "") (hus : userID ≠ "")
    (hu : s.users.find? (fun x => x.id = userID) = some u)
    (hval : (match mapLookup s.clients clientID with
      | some c => decide (c.redirectURIs = [] ∨ redirectURI ∈ c.redirectURIs)
      | none => true) = true) :
    (authorizeEndpoint s clientID redirectURI state "code" scope userID now
        true).1 = .redirectWithCode ("code_" ++ toString now) state ∧
    ∃ g f : String,
      (tokenFormEndpoint
          (authorizeEndpoint s clientID redirectURI state "code" scope userID
            now true).2
          "authorization_code" "" "" "" ("code_" ++ toString now) iss2
          now2).1
        = .ok { accessToken :=
                  "mock_access_token_" ++ ("code_" ++ toString now),
                tokenType := "Bearer", expiresIn := 3600,
                refreshToken :=
                  some ("mock_refresh_token_" ++ ("code_" ++ toString now)),
                scope := some scope,
                idToken := some (makeUnsignedJWT
                  { iss := iss2, aud := clientID, sub := userID,
                    email := u.userPrincipalName, name := u.displayName,
                    givenName := g, familyName := f,
                    iat := (now2 : Int), exp := (now2 : Int) + 3600 }) } ∧
      dotSegmentCount (makeUnsignedJWT
        { iss := iss2, aud := clientID, sub := userID,
          email := u.userPrincipalName, name := u.displayName,
          givenName := g, familyName := f,
          iat := (now2 : Int), exp := (now2 : Int) + 3600 }) = 3 := by
  have e1 : authorizeEndpoint s clientID redirectURI state "code" scope
      userID now true
      = (.redirectWithCode ("code_" ++ toString now) state,
         { s with codes := (mapInsert s.codes ("code_" ++ toString now)
           (⟨"code_" ++ toString now, clientID, redirectURI, scope, userID,
             now⟩ : AuthCode)) }) := by
    simp [authorizeEndpoint, hc, hr, hus]
    simpa using hval
  have hcode : ("code_" ++ toString now) ≠ "" := by
    intro hcon
    have hlen := congrArg String.length hcon
    simp [String.length_append] at hlen
    exact absurd hlen.1 (by decide)
  rw [e1]
  refine ⟨rfl, (resolveUserClaims s.users userID).2.2.1,
    (resolveUserClaims s.users userID).2.2.2, ?_,
    dotSegmentCount_makeUnsignedJWT _⟩
  have hlk := mapLookup_insert s.codes ("code_" ++ toString now)
    ⟨"code_" ++ toString now, clientID, redirectURI, scope, userID, now⟩
  have hres1 : (resolveUserClaims s.users userID).1 = u.userPrincipalName :=
    by simp [resolveUserClaims, hu]
  have hres2 : (resolveUserClaims s.users userID).2.1 = u.displayName :=
    by simp [resolveUserClaims, hu]
  simp only [tokenFormEndpoint, hlk, if_neg hcode]
  simp [hres1, hres2]

/-- Concrete instance of `authorize_token_roundtrip`. -/
theorem authorize_token_roundtrip_witness :
    (authorizeEndpoint
        ⟨[⟨"u1", "Ada Lovelace", "ada@example.com", "ada@example.com"⟩],
          [], [], [], []⟩
        "client-a" "http://app/cb" "st" "code" "openid" "u1" 21 true).1
      = .redirectWithCode ("code_" ++ toString 21) "st" ∧
    ∃ g f : String,
      (tokenFormEndpoint
          (authorizeEndpoint
            ⟨[⟨"u1", "Ada Lovelace", "ada@example.com", "ada@example.com"⟩],
              [], [], [], []⟩
            "client-a" "http://app/cb" "st" "code" "openid" "u1" 21 true).2
          "authorization_code" "" "" "" ("code_" ++ toString 21)
          "http://local" 40).1
        = .ok { accessToken :=
                  "mock_access_token_" ++ ("code_" ++ toString 21),
                tokenType := "Bearer", expiresIn := 3600,
                refreshToken :=
                  some ("mock_refresh_token_" ++ ("code_" ++ toString 21)),
                scope := some "openid",
                idToken := some (makeUnsignedJWT
                  { iss := "http://local", aud := "client-a", sub := "u1",
                    email := "ada@example.com", name := "Ada Lovelace",
                    givenName := g, familyName := f,
                    iat := (40 : Int), exp := (40 : Int) + 3600 }) } ∧
      dotSegmentCount (makeUnsignedJWT
        { iss := "http://local", aud := "client-a", sub := "u1",
          email := "ada@example.com", name := "Ada Lovelace",
          givenName := g, familyName := f,
          iat := (40 : Int), exp := (40 : Int) + 3600 }) = 3 :=
  authorize_token_roundtrip
    ⟨[⟨"u1", "Ada Lovelace", "ada@example.com", "ada@example.com"⟩],
      [], [], [], []⟩
    "client-a" "http://app/cb" "st" "openid" "u1" "http://local" 21 40
    ⟨"u1", "Ada Lovelace", "ada@example.com", "ada@example.com"⟩
    (by decide) (by decide) (by decide) (by decide) (by decide)

/-! ### Theorems for claim C7 -/

/-- C7 counterexample: a detail request whose parameters carry no
expansion flag still receives the `instanceView` block — the mapper gates
it on the presence of the internal `status` field, not on the query. -/
theorem vm_instanceView_without_expand_counterexample :
    paramsGet [("vmName", "vm1")] "$expand" = "" ∧
    mapVirtualMachinesResponseGET
        [⟨"id1", "vm1", "rg1", "loc", "Standard_B2s", "Linux", "Succeeded",
          "VM running", some "running", []⟩]
        [("vmName", "vm1")]
      = .ok (.single
          { id := "id1", name := "vm1",
            type := "Microsoft.Compute/virtualMachines", location := "loc",
            tags := [],
            properties :=
              { vmId := "id1", provisioningState := "Succeeded",
                vmSize := "Standard_B2s", osType := "Linux",
                instanceView := some
                  [{ code := "PowerState/running", level := "Info",
                     displayStatus := "VM running" },
                   { code := "ProvisioningState/Succeeded", level := "Info",
                     displayStatus := "Provisioning succeeded" }] } }) :=
  ⟨rfl, rfl⟩

/-- C7 amended: the instance-view block is present exactly when the
internal `status` field is present, carrying the derived power-state code
(`stopped` maps to `PowerState/deallocated`, any other status to
`PowerState/<status>`); the mapper's outcome depends on the request
parameters only through `vmName` and `resourceGroupName`, so the
expansion query flag is ignored. -/
theorem vm_instanceView_by_status (vm : VMMap) :
    ((convertVMToARMFormat vm).properties.instanceView.isSome ↔
      vm.status.isSome) ∧
    (∀ st, vm.status = some st →
      (convertVMToARMFormat vm).properties.instanceView = some
        [{ code := if st = "stopped" then "PowerState/deallocated"
             else "PowerState/" ++ st,
           level := "Info", displayStatus := vm.powerState },
         { code := "ProvisioningState/" ++ vm.provisioningState,
           level := "Info",
           displayStatus :=
             "Provisioning " ++ goToLower vm.provisioningState }]) ∧
    (∀ (vms : List VMMap) (params1 params2 : List (String × String)),
      paramsGet params1 "vmName" = paramsGet params2 "vmName" →
      paramsGet params1 "resourceGroupName"
        = paramsGet params2 "resourceGroupName" →
      mapVirtualMachinesResponseGET vms params1
        = mapVirtualMachinesResponseGET vms params2) := by
  refine ⟨?_, ?_, ?_⟩
  · cases h : vm.status <;> simp [convertVMToARMFormat, h]
  · intro st h
    simp [convertVMToARMFormat, h]
  · intro vms p1 p2 h1 h2
    unfold mapVirtualMachinesResponseGET
    rw [h1, h2]

/-- Concrete instance of `vm_instanceView_by_status`. -/
theorem vm_instanceView_by_status_witness :
    (convertVMToARMFormat ⟨"i", "n", "rg", "l", "sz", "os", "Succeeded",
        "PS", some "stopped", []⟩).properties.instanceView = some
      [{ code := "PowerState/deallocated", level := "Info",
         displayStatus := "PS" },
       { code := "ProvisioningState/Succeeded", level := "Info",
         displayStatus := "Provisioning succeeded" }] ∧
    mapVirtualMachinesResponseGET [] [("vmName", "v")]
      = mapVirtualMachinesResponseGET []
          [("vmName", "v"), ("$expand", "instanceView")] :=
  ⟨by
    have := (vm_instanceView_by_status ⟨"i", "n", "rg", "l", "sz",
      "os", "Succeeded", "PS", some "stopped", []⟩).2.1 "stopped" rfl
    simpa [show goToLower "Succeeded" = "succeeded" from rfl] using this,
   (vm_instanceView_by_status ⟨"i", "n", "rg", "l", "sz", "os", "Succeeded",
      "PS", some "stopped", []⟩).2.2 [] _ _ rfl rfl⟩

/-! ### Theorems for claim C8 -/

/-- C8 counterexample: the OpenAPI 3.0 generator copies an empty operation
id verbatim, so two operations that both omit the id yield two routes
sharing the empty operation id — nothing is synthesized from method and
path. -/
theorem openapi3_missing_id_counterexample :
    generateFromOpenAPI3
        [("/a", ⟨some ⟨"", []⟩, some ⟨"", []⟩, none, none, none⟩)]
      = [{ method := "GET", path := "/a", operationId := "", tags := [] },
         { method := "POST", path := "/a", operationId := "", tags := [] }] ∧
    (generateFromOpenAPI3
        [("/a", ⟨some ⟨"", []⟩, some ⟨"", []⟩, none, none, none⟩)]).map
        (fun rt => rt.operationId) = ["", ""] :=
  ⟨rfl, rfl⟩

theorem opsOf_method_mem (item : PathItemOps) (mo : String × SpecOperation)
    (h : mo ∈ opsOf item) :
    mo.1 ∈ ["GET", "POST", "PUT", "DELETE", "PATCH"] := by
  rw [opsOf, List.mem_filterMap] at h
  obtain ⟨a, ha, hfa⟩ := h
  have h1 : mo.1 = a.1 := by
    cases h2 : a.2 with
    | none => rw [h2] at hfa; simp at hfa
    | some op =>
      rw [h2] at hfa
      obtain rfl : (a.1, op) = mo := by simpa using hfa
      rfl
  rw [h1]
  have ha5 : a = ("GET", item.get) ∨ a = ("POST", item.post) ∨
      a = ("PUT", item.put) ∨ a = ("DELETE", item.delete) ∨
      a = ("PATCH", item.patch) := by simpa using ha
  rcases ha5 with rfl | rfl | rfl | rfl | rfl <;> simp

/-- C8 amended: only the Swagger 2.0 generator synthesizes a missing
operation id — deterministically as `method + "_" + path` with slashes
replaced by underscores, hence never empty — while the OpenAPI 3.0
generator emits the declared operation id verbatim (an omitted one stays
empty). -/
theorem operationId_synthesis (ps : List (String × PathItemOps)) :
    (∀ rt ∈ generateFromSwagger2 ps, rt.operationId ≠ "" ∧
      ∃ item op, (rt.path, item) ∈ ps ∧ (rt.method, op) ∈ opsOf item ∧
        rt.operationId = (if op.operationId = "" then
          rt.method ++ "_" ++ replaceSlashes rt.path else op.operationId)) ∧
    (∀ rt ∈ generateFromOpenAPI3 ps, ∃ item op, (rt.path, item) ∈ ps ∧
      (rt.method, op) ∈ opsOf item ∧ rt.operationId = op.operationId) := by
  constructor
  · intro rt hrt
    simp only [generateFromSwagger2, List.mem_flatMap, List.mem_map] at hrt
    obtain ⟨pi, hpi, mo, hmo, hrt⟩ := hrt
    subst hrt
    refine ⟨?_, pi.2, mo.2, by simpa using hpi, by simpa using hmo, ?_⟩
    · by_cases hid : mo.2.operationId = ""
      · simp only [hid, if_true]
        have hm := opsOf_method_mem pi.2 mo hmo
        simp only [List.mem_cons, List.not_mem_nil, or_false] at hm
        intro hcon
        have hlen := congrArg String.length hcon
        rw [String.length_append, String.length_append] at hlen
        have hm1 : 0 < mo.1.length := by
          rcases hm with h | h | h | h | h <;> rw [h] <;> decide
        have hu1 : ("_" : String).length = 1 := rfl
        rw [hu1] at hlen
        simp at hlen
      · simp [hid]
    · by_cases hid : mo.2.operationId = "" <;> simp [hid]
  · intro rt hrt
    simp only [generateFromOpenAPI3, List.mem_flatMap, List.mem_map] at hrt
    obtain ⟨pi, hpi, mo, hmo, hrt⟩ := hrt
    subst hrt
    exact ⟨pi.2, mo.2, by simpa using hpi, by simpa using hmo, rfl⟩

/-- Concrete instance of `operationId_synthesis`: the Swagger 2.0
generator fills an omitted operation id from method and path. -/
theorem operationId_synthesis_witness :
    generateFromSwagger2 [("/a/b", ⟨some ⟨"", []⟩, none, none, none, none⟩)]
      = [{ method := "GET", path := "/a/b", operationId := "GET__a_b",
           tags := [] }] ∧
    ∀ rt ∈ generateFromSwagger2
        [("/a/b", ⟨some ⟨"", []⟩, none, none, none, none⟩)],
      rt.operationId ≠ "" :=
  ⟨rfl, fun rt hrt =>
    ((operationId_synthesis
      [("/a/b", ⟨some ⟨"", []⟩, none, none, none, none⟩)]).1 rt hrt).1⟩

/-! ### Theorems for claim C4 -/

/-- C4 counterexample: a parameterized route group answers 404, not 405,
when the path matches a route's pattern but the method matches no route. -/
theorem group_method_mismatch_counterexample :
    (MatchPath "/a/\x7bx\x7d" "/a/b").1 = true ∧
    groupHandler [⟨"GET", "/a/\x7bx\x7d", "op1", []⟩] "POST" "/a/b"
      = .notFound ∧
    groupHandler [⟨"GET", "/a/\x7bx\x7d", "op1", []⟩] "POST" "/a/b"
      ≠ .methodNotAllowed := by
  refine ⟨rfl, rfl, by decide⟩

/-- C4 amended: only exact-path routes (served by `createRouteHandler`)
answer 405 on a method mismatch; the catch-all group handler for
parameterized routes answers 404 whenever no route matches on both method
and pattern, even if some pattern matches the path. -/
theorem dispatch_method_mismatch (rt : Route) (routes : List Route)
    (method path : String) :
    (method ≠ rt.method →
      createRouteHandler rt method path = .methodNotAllowed) ∧
    ((∀ r ∈ routes,
        ¬ (method = r.method ∧ (MatchPath r.path path).1 = true)) →
      groupHandler routes method path = .notFound) := by
  constructor
  · intro h
    simp [createRouteHandler, h]
  · intro h
    unfold groupHandler
    have hf : routes.find? (fun r =>
        method = r.method ∧ (MatchPath r.path path).1 = true) = none :=
      List.find?_eq_none.mpr (fun r hr => by simpa using h r hr)
    rw [hf]

/-- Concrete instance of `dispatch_method_mismatch`. -/
theorem dispatch_method_mismatch_witness :
    createRouteHandler ⟨"GET", "/x", "op", []⟩ "POST" "/x"
      = .methodNotAllowed ∧
    groupHandler [] "GET" "/x" = .notFound :=
  ⟨(dispatch_method_mismatch ⟨"GET", "/x", "op", []⟩ [] "POST" "/x").1
      (by decide),
   (dispatch_method_mismatch ⟨"GET", "/x", "op", []⟩ [] "GET" "/x").2
      (by simp)⟩

/-! ### Pattern-compilation lemmas (for claim C2) -/

theorem compileAtomsF_eq (f : Nat) (cs : List Char) (hf : cs.length ≤ f) :
    compileAtomsF f cs = compileAtoms cs := by
  induction f using Nat.strong_induction_on generalizing cs with
  | _ f ih =>
    cases cs with
    | nil => cases f <;> rfl
    | cons c rest =>
      cases f with
      | zero => simp at hf
      | succ f =>
        have hr : rest.length ≤ f := by simpa using hf
        show compileAtomsF (f + 1) (c :: rest)
          = compileAtomsF (rest.length + 1) (c :: rest)
        simp only [compileAtomsF]
        by_cases hb : c = '\x7b'
        · rw [if_pos hb, if_pos hb]
          by_cases hcond :
            (rest.takeWhile (fun d => d ≠ '\x7d')).length < rest.length ∧
              rest.takeWhile (fun d => d ≠ '\x7d') ≠ []
          · rw [if_pos hcond, if_pos hcond]
            congr 1
            have hlen : (rest.drop
                ((rest.takeWhile (fun d => d ≠ '\x7d')).length + 1)).length
                ≤ rest.length := by
              rw [List.length_drop]
              omega
            rw [ih f (Nat.lt_succ_self f) _ (le_trans hlen hr),
              ih rest.length (Nat.lt_succ_of_le hr) _ hlen]
          · rw [if_neg hcond, if_neg hcond]
            congr 1
            rw [ih f (Nat.lt_succ_self f) rest hr,
              ih rest.length (Nat.lt_succ_of_le hr) rest le_rfl]
        · rw [if_neg hb, if_neg hb]
          by_cases hd : c = '.'
          · rw [if_pos hd, if_pos hd]
            congr 1
            rw [ih f (Nat.lt_succ_self f) rest hr,
              ih rest.length (Nat.lt_succ_of_le hr) rest le_rfl]
          · rw [if_neg hd, if_neg hd]
            congr 1
            rw [ih f (Nat.lt_succ_self f) rest hr,
              ih rest.length (Nat.lt_succ_of_le hr) rest le_rfl]

theorem compileAtoms_lit (c : Char) (rest : List Char)
    (h1 : ¬ c = '\x7b') (h2 : ¬ c = '.') :
    compileAtoms (c :: rest) = Atom.lit c :: compileAtoms rest := by
  show compileAtomsF (rest.length + 1) (c :: rest) = _
  simp only [compileAtomsF, h1, h2, if_false, ite_false]
  rw [compileAtomsF_eq rest.length rest le_rfl]

theorem compileAtoms_dot (rest : List Char) :
    compileAtoms ('.' :: rest) = Atom.dot :: compileAtoms rest := by
  show compileAtomsF (rest.length + 1) ('.' :: rest) = _
  have h1 : ¬ ('.' : Char) = '\x7b' := by decide
  simp only [compileAtomsF, h1, if_false, ite_false, ite_true]
  rw [compileAtomsF_eq rest.length rest le_rfl]

theorem takeWhile_append_not {α : Type} (p : α → Bool) (xs : List α)
    (y : α) (ys : List α) (hxs : ∀ x ∈ xs, p x = true) (hy : p y = false) :
    (xs ++ y :: ys).takeWhile p = xs := by
  induction xs with
  | nil => simp [List.takeWhile_cons, hy]
  | cons x xs ih =>
    simp only [List.cons_append, List.takeWhile_cons,
      hxs x (List.mem_cons_self x xs), ite_true]
    rw [ih (fun a ha => hxs a (List.mem_cons_of_mem x ha))]

theorem compileAtoms_param (name after : List Char) (h0 : name ≠ [])
    (h1 : '\x7d' ∉ name) :
    compileAtoms ('\x7b' :: (name ++ '\x7d' :: after))
      = Atom.grp name :: compileAtoms after := by
  have htw : (name ++ '\x7d' :: after).takeWhile (fun d => d ≠ '\x7d')
      = name := by
    refine takeWhile_append_not _ name '\x7d' after (fun x hx => ?_)
      (by simp)
    simp only [ne_eq, decide_eq_true_eq]
    intro hh
    exact h1 (hh ▸ hx)
  have hlen : name.length < (name ++ '\x7d' :: after).length := by
    simp [List.length_append]
  have hdrop : (name ++ '\x7d' :: after).drop (name.length + 1) = after := by
    have he : name ++ '\x7d' :: after = (name ++ ['\x7d']) ++ after := by
      simp
    have hl2 : name.length + 1 = (name ++ ['\x7d']).length := by simp
    rw [he, hl2, List.drop_left]
  show compileAtomsF ((name ++ '\x7d' :: after).length + 1) _ = _
  simp only [compileAtomsF, ite_true, htw]
  rw [if_pos ⟨hlen, h0⟩, hdrop]
  rw [compileAtomsF_eq _ after (by simp [List.length_append]; omega)]

theorem paramNameOfSeg_eq_some (seg n : List Char)
    (h : paramNameOfSeg seg = some n) :
    seg = '\x7b' :: (n ++ ['\x7d']) ∧ n ≠ [] ∧ '\x7d' ∉ n := by
  cases seg with
  | nil => simp [paramNameOfSeg] at h
  | cons c rest =>
    rw [paramNameOfSeg] at h
    split at h
    case isTrue hcond =>
      obtain ⟨hcb, hlen, hne⟩ := hcond
      obtain rfl : rest.takeWhile (fun d => d ≠ '\x7d') = n :=
        Option.some.inj h
      have hsplit := List.takeWhile_append_dropWhile
        (p := fun d => decide (d ≠ '\x7d')) (l := rest)
      have hdl : (rest.dropWhile (fun d => decide (d ≠ '\x7d'))).length
          = 1 := by
        have hlen2 := congrArg List.length hsplit
        rw [List.length_append] at hlen2
        omega
      obtain ⟨d, hd⟩ : ∃ d,
          rest.dropWhile (fun d => decide (d ≠ '\x7d')) = [d] := by
        cases hcase : rest.dropWhile (fun d => decide (d ≠ '\x7d')) with
        | nil => rw [hcase] at hdl; simp at hdl
        | cons d ds =>
          rw [hcase] at hdl
          have hds : ds = [] := by
            have hz : ds.length = 0 := by simpa using hdl
            exact List.length_eq_zero.mp hz
          exact ⟨d, by rw [hds]⟩
      have hdak : d = '\x7d' := by
        have h0lt : 0 <
            (rest.dropWhile (fun d => decide (d ≠ '\x7d'))).length := by
          rw [hdl]; omega
        have hnp := List.dropWhile_get_zero_not
          (p := fun d => decide (d ≠ '\x7d')) rest h0lt
        rw [List.get_of_eq hd] at hnp
        simpa using hnp
      refine ⟨?_, hne, ?_⟩
      · rw [hcb]
        conv_lhs => rw [← hsplit, hd, hdak]
      · intro hmem
        have := List.mem_takeWhile_imp hmem
        simp at this
    case isFalse => simp at h

theorem compileAtoms_plain_append (s t : List Char)
    (h : s.all plainChar = true) :
    compileAtoms (s ++ t) = s.map Atom.lit ++ compileAtoms t := by
  induction s with
  | nil => simp
  | cons c s ih =>
    have hc : plainChar c = true := by
      have := List.all_eq_true.mp h c (List.mem_cons_self c s)
      exact this
    have hcb : ¬ c = '\x7b' := by
      simp [plainChar] at hc
      exact hc.2.1
    have hcd : ¬ c = '.' := by
      simp [plainChar] at hc
      exact hc.2.2.2.1
    have hs : s.all plainChar = true := by
      rw [List.all_eq_true] at h ⊢
      exact fun x hx => h x (List.mem_cons_of_mem c hx)
    rw [List.cons_append, compileAtoms_lit c (s ++ t) hcb hcd, ih hs]
    rfl

theorem compileAtoms_seg_append (seg t : List Char) (h : wfSeg seg = true) :
    compileAtoms (seg ++ t) = segAtoms seg ++ compileAtoms t := by
  cases hp : paramNameOfSeg seg with
  | some n =>
    obtain ⟨hseg, hne, hnb⟩ := paramNameOfSeg_eq_some seg n hp
    subst hseg
    have hshape : ('\x7b' :: (n ++ ['\x7d'])) ++ t
        = '\x7b' :: (n ++ '\x7d' :: t) := by simp
    rw [hshape, compileAtoms_param n t hne hnb]
    simp [segAtoms, hp]
  | none =>
    have hall : seg.all plainChar = true := by
      rw [wfSeg, hp] at h
      simpa using h
    rw [compileAtoms_plain_append seg t hall]
    simp [segAtoms, hp]

theorem intercalate_single {α : Type} (sep : List α) (x : List α) :
    List.intercalate sep [x] = x := by
  simp [List.intercalate]

theorem intercalate_cons2 {α : Type} (sep x y : List α) (zs : List (List α)) :
    List.intercalate sep (x :: y :: zs)
      = x ++ sep ++ List.intercalate sep (y :: zs) := by
  simp [List.intercalate, List.intersperse_cons_cons]

theorem compileAtoms_join (ss : List (List Char))
    (h : ∀ seg ∈ ss, wfSeg seg = true) :
    compileAtoms (List.intercalate ['/'] ss)
      = atomsJoin (ss.map segAtoms) := by
  induction ss with
  | nil => rfl
  | cons s tail ih =>
    cases tail with
    | nil =>
      rw [intercalate_single]
      show compileAtoms s = atomsJoin [segAtoms s]
      rw [atomsJoin, intercalate_single]
      have hsa := compileAtoms_seg_append s [] (h s (List.mem_cons_self s []))
      have h0 : compileAtoms ([] : List Char) = [] := rfl
      simpa [h0] using hsa
    | cons t2 ts =>
      rw [intercalate_cons2]
      have hslash1 : ('/' : Char) ≠ '\x7b' := by decide
      have hslash2 : ('/' : Char) ≠ '.' := by decide
      rw [List.append_assoc, List.singleton_append]
      rw [compileAtoms_seg_append s _ (h s (List.mem_cons_self s _))]
      rw [compileAtoms_lit '/' _ hslash1 hslash2]
      rw [ih (fun seg hseg => h seg (List.mem_cons_of_mem s hseg))]
      simp only [atomsJoin, List.map_cons]
      rw [intercalate_cons2 [Atom.lit '/'] (segAtoms s) (segAtoms t2)
        (ts.map segAtoms)]
      rw [List.append_assoc, List.singleton_append]

/-! ### Lemmas on slash splitting (for claim C2) -/

theorem splitChar_eq_splitOn (sep : Char) (l : List Char) :
    splitChar sep l = l.splitOn sep := by
  induction l with
  | nil => rfl
  | cons c rest ih =>
    show (match splitChar sep rest with
      | [] => [[]]
      | s :: ss => if c = sep then [] :: s :: ss else (c :: s) :: ss) = _
    rw [List.splitOn] at ih ⊢
    rw [List.splitOnP_cons]
    cases hs : splitChar sep rest with
    | nil => exact absurd hs (splitChar_ne_nil sep rest)
    | cons s ss =>
      rw [hs] at ih
      change (if c = sep then [] :: s :: ss else (c :: s) :: ss) = _
      by_cases hc : c = sep
      · rw [if_pos hc, if_pos (show (c == sep) = true by simpa using hc), ih]
      · rw [if_neg hc,
          if_neg (show ¬ (c == sep) = true by simpa using hc), ← ih]
        rfl

theorem splitChar_no_sep (sep : Char) (l : List Char) (h : sep ∉ l) :
    splitChar sep l = [l] := by
  rw [splitChar_eq_splitOn, List.splitOn]
  refine List.splitOnP_eq_single _ _ (fun y hy => ?_)
  simp only [beq_iff_eq]
  intro hc
  exact h (hc ▸ hy)

theorem join_splitChar (sep : Char) (l : List Char) :
    List.intercalate [sep] (splitChar sep l) = l := by
  rw [splitChar_eq_splitOn]
  exact List.intercalate_splitOn l sep

theorem splitChar_mem_no_sep (sep : Char) (l : List Char) :
    ∀ seg ∈ splitChar sep l, sep ∉ seg := by
  induction l with
  | nil =>
    intro seg hseg
    simp [splitChar] at hseg
    simp [hseg]
  | cons c rest ih =>
    intro seg hseg
    cases hs : splitChar sep rest with
    | nil => exact absurd hs (splitChar_ne_nil sep rest)
    | cons s ss =>
      have hseg2 : seg ∈ (if c = sep then [] :: s :: ss
          else (c :: s) :: ss) := by
        have hunfold : splitChar sep (c :: rest)
            = (match splitChar sep rest with
              | [] => [[]]
              | s :: ss => if c = sep then [] :: s :: ss
                else (c :: s) :: ss) := rfl
        rw [hunfold, hs] at hseg
        exact hseg
      by_cases hc : c = sep
      · rw [if_pos hc] at hseg2
        rcases List.mem_cons.mp hseg2 with rfl | hmem
        · simp
        · exact ih seg (hs ▸ hmem)
      · rw [if_neg hc] at hseg2
        rcases List.mem_cons.mp hseg2 with rfl | hmem
        · intro hcon
          rcases List.mem_cons.mp hcon with rfl | hmem2
          · exact hc rfl
          · exact ih s (hs ▸ List.mem_cons_self s ss) hmem2
        · exact ih seg (hs ▸ List.mem_cons_of_mem s hmem)

theorem exists_first_sep (sep : Char) (r : List Char) (h : sep ∈ r) :
    ∃ r1 r2, sep ∉ r1 ∧ r = r1 ++ sep :: r2 := by
  induction r with
  | nil => simp at h
  | cons c rest ih =>
    by_cases hc : c = sep
    · exact ⟨[], rest, by simp, by simp [hc]⟩
    · have hmem : sep ∈ rest := by
        rcases List.mem_cons.mp h with h1 | h1
        · exact absurd h1.symm hc
        · exact h1
      obtain ⟨r1, r2, h1, h2⟩ := ih hmem
      refine ⟨c :: r1, r2, ?_, by rw [List.cons_append, ← h2]⟩
      intro hcon
      rcases List.mem_cons.mp hcon with h3 | h3
      · exact hc h3.symm
      · exact h1 h3

theorem plain_no_slash (s : List Char) (h : s.all plainChar = true) :
    ('/' : Char) ∉ s := by
  intro hm
  have := List.all_eq_true.mp h '/' hm
  simp [plainChar] at this

/-! ### Matcher lemmas (for claim C2) -/

theorem runMatch_lit_cons (c : Char) (as : List Atom) (d : Char)
    (ds : List Char) :
    runMatch (Atom.lit c :: as) (d :: ds)
      = if d = c then runMatch as ds else none := rfl

theorem runMatch_lit_nil (c : Char) (as : List Atom) :
    runMatch (Atom.lit c :: as) [] = none := rfl

theorem runMatch_grp_eq (n : List Char) (as : List Atom) (s : List Char) :
    runMatch (Atom.grp n :: as) s
      = tryGroup (runMatch as) s
          ((s.takeWhile (fun c => c ≠ '/')).length) := rfl

theorem runMatch_lits_only (s r : List Char) :
    runMatch (s.map Atom.lit) r = if r = s then some [] else none := by
  induction s generalizing r with
  | nil => cases r <;> rfl
  | cons c s ih =>
    cases r with
    | nil => rfl
    | cons d ds =>
      rw [List.map_cons, runMatch_lit_cons]
      by_cases hdc : d = c
      · rw [if_pos hdc, ih]
        by_cases hds : ds = s <;> simp [hdc, hds]
      · rw [if_neg hdc]
        simp [hdc]

theorem tryGroup_none (m : List Char → Option (List (List Char)))
    (s : List Char) (k : Nat)
    (h : ∀ j, 1 ≤ j → j ≤ k → m (s.drop j) = none) :
    tryGroup m s k = none := by
  induction k with
  | zero => rfl
  | succ k ih =>
    show (match m (s.drop (k + 1)) with
      | some caps => some (s.take (k + 1) :: caps)
      | none => tryGroup m s k) = none
    rw [h (k + 1) (by omega) le_rfl]
    exact ih (fun j h1 h2 => h j h1 (by omega))

theorem runMatch_grp_sep (n : List Char) (as : List Atom)
    (r1 r2 : List Char) (h1 : '/' ∉ r1) :
    runMatch (Atom.grp n :: Atom.lit '/' :: as) (r1 ++ '/' :: r2)
      = if r1.isEmpty then none
        else (runMatch as r2).map (fun caps => r1 :: caps) := by
  rw [runMatch_grp_eq]
  have htw : ((r1 ++ '/' :: r2).takeWhile (fun c => c ≠ '/')) = r1 := by
    refine takeWhile_append_not _ r1 '/' r2 (fun x hx => ?_) (by simp)
    simp only [ne_eq, decide_eq_true_eq]
    intro hh
    exact h1 (hh ▸ hx)
  rw [htw]
  cases r1 with
  | nil => rfl
  | cons x r1x =>
    rw [show (x :: r1x).length = r1x.length + 1 from rfl]
    have hdrop : ((x :: r1x) ++ '/' :: r2).drop (r1x.length + 1)
        = '/' :: r2 := by
      rw [show r1x.length + 1 = (x :: r1x).length from rfl, List.drop_left]
    show (match runMatch (Atom.lit '/' :: as)
        (((x :: r1x) ++ '/' :: r2).drop (r1x.length + 1)) with
      | some caps => some ((((x :: r1x) ++ '/' :: r2).take (r1x.length + 1))
          :: caps)
      | none => tryGroup (runMatch (Atom.lit '/' :: as))
          ((x :: r1x) ++ '/' :: r2) r1x.length) = _
    rw [hdrop, runMatch_lit_cons, if_pos rfl]
    have htake : (((x :: r1x) ++ '/' :: r2).take (r1x.length + 1))
        = x :: r1x := by
      rw [show r1x.length + 1 = (x :: r1x).length from rfl, List.take_left]
    rw [htake]
    cases hm : runMatch as r2 with
    | some caps => rfl
    | none =>
      show tryGroup (runMatch (Atom.lit '/' :: as))
          ((x :: r1x) ++ '/' :: r2) r1x.length = _
      rw [tryGroup_none _ _ _ ?hnone]
      · rfl
      case hnone =>
        intro j hj1 hj2
        have hjlt : j < (x :: r1x).length := by
          simp only [List.length_cons]
          omega
        rw [List.drop_append_of_le_length (le_of_lt hjlt)]
        rw [List.drop_eq_getElem_cons hjlt]
        rw [List.cons_append, runMatch_lit_cons]
        have hby : ¬ ((x :: r1x)[j] = '/') := by
          intro hcon
          exact h1 (hcon ▸ List.getElem_mem hjlt)
        rw [if_neg hby]

theorem takeWhile_all_eq_self (p : Char → Bool) (l : List Char)
    (h : ∀ x ∈ l, p x = true) : l.takeWhile p = l := by
  induction l with
  | nil => rfl
  | cons x xs ih =>
    rw [List.takeWhile_cons, if_pos (h x (List.mem_cons_self x xs)),
      ih (fun a ha => h a (List.mem_cons_of_mem x ha))]

theorem runMatch_grp_single (n : List Char) (r : List Char) :
    runMatch [Atom.grp n] r
      = if ('/' ∉ r ∧ r ≠ []) then some [r] else none := by
  rw [runMatch_grp_eq]
  by_cases hs : ('/' : Char) ∈ r
  · rw [if_neg (by simp [hs])]
    refine tryGroup_none _ _ _ (fun j hj1 hj2 => ?_)
    have hlt : (r.takeWhile (fun c => c ≠ '/')).length < r.length := by
      rcases Nat.lt_or_ge (r.takeWhile (fun c => c ≠ '/')).length
          r.length with h | h
      · exact h
      · exfalso
        have hle := (List.takeWhile_prefix
          (l := r) (fun c => c ≠ '/')).length_le
        have heq : (r.takeWhile (fun c => c ≠ '/')).length = r.length := by
          omega
        have hself : r.takeWhile (fun c => c ≠ '/') = r :=
          (List.takeWhile_prefix (fun c => c ≠ '/')).eq_of_length heq
        have hmem : ('/' : Char) ∈ r.takeWhile (fun c => c ≠ '/') := by
          rw [hself]
          exact hs
        have := List.mem_takeWhile_imp hmem
        simp at this
    have hjr : j < r.length := by omega
    cases hdr : r.drop j with
    | nil =>
      exfalso
      have := congrArg List.length hdr
      rw [List.length_drop] at this
      simp at this
      omega
    | cons y ys =>
      show runMatch [] (y :: ys) = none
      rfl
  · by_cases hr : r = []
    · subst hr
      rfl
    · rw [if_pos ⟨hs, hr⟩]
      have htw : r.takeWhile (fun c => c ≠ '/') = r := by
        refine takeWhile_all_eq_self _ r (fun x hx => ?_)
        simp only [ne_eq, decide_eq_true_eq]
        intro hh
        exact hs (hh ▸ hx)
      rw [htw]
      cases hrc : r with
      | nil => exact absurd hrc hr
      | cons x rx =>
        show (match runMatch [] ((x :: rx).drop (rx.length + 1)) with
          | some caps => some (((x :: rx).take (rx.length + 1)) :: caps)
          | none => tryGroup (runMatch []) (x :: rx) rx.length) = _
        have hdrop : (x :: rx).drop (rx.length + 1) = [] := by
          apply List.drop_eq_nil_of_le
          simp
        have htake : (x :: rx).take (rx.length + 1) = x :: rx := by
          apply List.take_of_length_le
          simp
        rw [hdrop, htake]
        rfl

theorem runMatch_lits_sep (s : List Char) (as : List Atom)
    (r1 r2 : List Char) (hs : '/' ∉ s) (h1 : '/' ∉ r1) :
    runMatch (s.map Atom.lit ++ Atom.lit '/' :: as) (r1 ++ '/' :: r2)
      = if s = r1 then runMatch as r2 else none := by
  induction s generalizing r1 with
  | nil =>
    cases r1 with
    | nil =>
      simp only [List.map_nil, List.nil_append, runMatch_lit_cons,
        if_pos rfl]
    | cons y r1x =>
      have hy : ¬ (y = '/') := by
        intro hcon
        exact h1 (hcon ▸ List.mem_cons_self y r1x)
      simp only [List.map_nil, List.nil_append, List.cons_append,
        runMatch_lit_cons]
      rw [if_neg hy, if_neg (by simp)]
  | cons c sx ih =>
    have hc : ¬ (c = '/') := by
      intro hcon
      exact hs (hcon ▸ List.mem_cons_self c sx)
    have hsx : ('/' : Char) ∉ sx := fun hm => hs (List.mem_cons_of_mem c hm)
    cases r1 with
    | nil =>
      simp only [List.map_cons, List.cons_append, List.nil_append,
        runMatch_lit_cons]
      rw [if_neg (fun hcon => hc hcon.symm)]
      rw [if_neg (by simp)]
    | cons y r1x =>
      have h1x : ('/' : Char) ∉ r1x := fun hm => h1 (List.mem_cons_of_mem y hm)
      simp only [List.map_cons, List.cons_append, runMatch_lit_cons]
      by_cases hyc : y = c
      · rw [if_pos hyc, ih r1x hsx h1x]
        by_cases hsr : sx = r1x <;> simp [hyc, hsr]
      · rw [if_neg hyc]
        have : ¬ (c :: sx = y :: r1x) := by
          simp
          intro hcy
          exact absurd hcy.symm hyc
        rw [if_neg this]

theorem runMatch_lits_append_noslash (s : List Char) (as : List Atom)
    (r : List Char) (h : ('/' : Char) ∉ r)
    (hcont : ∀ t : List Char, ('/' : Char) ∉ t → runMatch as t = none) :
    runMatch (s.map Atom.lit ++ as) r = none := by
  induction s generalizing r with
  | nil => simpa using hcont r h
  | cons c sx ih =>
    cases r with
    | nil => rfl
    | cons d ds =>
      simp only [List.map_cons, List.cons_append, runMatch_lit_cons]
      by_cases hdc : d = c
      · rw [if_pos hdc]
        exact ih ds (fun hm => h (List.mem_cons_of_mem d hm))
      · rw [if_neg hdc]

theorem runMatch_seg_sep_noslash (seg : List Char) (as : List Atom)
    (r : List Char) (h : ('/' : Char) ∉ r) :
    runMatch (segAtoms seg ++ Atom.lit '/' :: as) r = none := by
  have hafter : ∀ t : List Char, ('/' : Char) ∉ t →
      runMatch (Atom.lit '/' :: as) t = none := by
    intro t ht
    cases t with
    | nil => rfl
    | cons y ys =>
      have hy : ¬ (y = '/') := by
        intro hcon
        subst hcon
        exact ht (List.mem_cons_self _ _)
      rw [runMatch_lit_cons, if_neg hy]
  cases hp : paramNameOfSeg seg with
  | some n =>
    rw [segAtoms, hp]
    rw [List.singleton_append, runMatch_grp_eq]
    refine tryGroup_none _ _ _ (fun j hj1 hj2 => ?_)
    exact hafter _ (fun hm => h (List.mem_of_mem_drop hm))
  | none =>
    rw [segAtoms, hp]
    exact runMatch_lits_append_noslash seg _ r h hafter

/-! ### Matching against a joined segment list (for claim C2) -/

theorem atomsJoin_cons2 (s t2 : List Char) (ts : List (List Char)) :
    atomsJoin ((s :: t2 :: ts).map segAtoms)
      = segAtoms s ++ Atom.lit '/' :: atomsJoin ((t2 :: ts).map segAtoms) := by
  simp only [atomsJoin, List.map_cons]
  rw [intercalate_cons2]
  rw [List.append_assoc, List.singleton_append]

theorem runMatch_atomsJoin :
    ∀ (ss : List (List Char)) (r : List Char), ss ≠ [] →
      (∀ seg ∈ ss, wfSeg seg = true) →
      runMatch (atomsJoin (ss.map segAtoms)) r
        = if segsOK ss (splitChar '/' r) = true
          then some (segsCaps ss (splitChar '/' r)) else none := by
  intro ss
  induction ss with
  | nil => exact fun r hne _ => absurd rfl hne
  | cons s tail ih =>
    intro r hne hwf
    cases tail with
    | nil =>
      have hj : atomsJoin ([s].map segAtoms) = segAtoms s := by
        simp only [List.map_cons, List.map_nil, atomsJoin]
        exact intercalate_single _ _
      rw [hj]
      cases hp : paramNameOfSeg s with
      | some n =>
        rw [show segAtoms s = [Atom.grp n] by simp [segAtoms, hp]]
        rw [runMatch_grp_single]
        by_cases hs : ('/' : Char) ∈ r
        · rw [if_neg (by simp [hs])]
          obtain ⟨r1, r2, hr1, rfl⟩ := exists_first_sep '/' r hs
          rw [splitChar_append_sep '/' r1 r2 hr1]
          cases hsp : splitChar '/' r2 with
          | nil => exact absurd hsp (splitChar_ne_nil _ _)
          | cons q qs => simp [segsOK]
        · by_cases hr : r = []
          · subst hr
            rw [if_neg (by simp)]
            simp [splitChar, segsOK, segOK, hp]
          · rw [if_pos ⟨hs, hr⟩]
            rw [splitChar_no_sep '/' r hs]
            simp [segsOK, segOK, hp, segsCaps, hr]
      | none =>
        rw [show segAtoms s = s.map Atom.lit by simp [segAtoms, hp]]
        rw [runMatch_lits_only]
        have hall : s.all plainChar = true := by
          have := hwf s (List.mem_cons_self s _)
          rw [wfSeg, hp] at this
          simpa using this
        have hnos : ('/' : Char) ∉ s := plain_no_slash s hall
        by_cases hs : ('/' : Char) ∈ r
        · have hneq : ¬ (r = s) := fun hcon => hnos (hcon ▸ hs)
          rw [if_neg hneq]
          obtain ⟨r1, r2, hr1, rfl⟩ := exists_first_sep '/' r hs
          rw [splitChar_append_sep '/' r1 r2 hr1]
          cases hsp : splitChar '/' r2 with
          | nil => exact absurd hsp (splitChar_ne_nil _ _)
          | cons q qs => simp [segsOK]
        · rw [splitChar_no_sep '/' r hs]
          by_cases hrs : r = s
          · rw [if_pos hrs]
            simp [segsOK, segOK, hp, segsCaps, hrs]
          · rw [if_neg hrs]
            have hsr : ¬ (s = r) := fun hcon => hrs hcon.symm
            simp [segsOK, segOK, hp, hsr]
    | cons t2 ts =>
      rw [atomsJoin_cons2]
      have hwftail : ∀ seg ∈ t2 :: ts, wfSeg seg = true :=
        fun seg hm => hwf seg (List.mem_cons_of_mem s hm)
      by_cases hs : ('/' : Char) ∈ r
      · obtain ⟨r1, r2, hr1, rfl⟩ := exists_first_sep '/' r hs
        rw [splitChar_append_sep '/' r1 r2 hr1]
        cases hp : paramNameOfSeg s with
        | some n =>
          rw [show segAtoms s = [Atom.grp n] by simp [segAtoms, hp]]
          rw [List.singleton_append]
          rw [runMatch_grp_sep n _ r1 r2 hr1]
          rw [ih r2 (by simp) hwftail]
          by_cases hemp : r1.isEmpty
          · rw [if_pos hemp]
            simp [segsOK, segOK, hp, hemp]
          · rw [if_neg hemp]
            by_cases hok : segsOK (t2 :: ts) (splitChar '/' r2) = true
            · simp [segsOK, segOK, hp, hemp, hok, segsCaps]
            · simp [segsOK, segOK, hp, hemp, hok]
        | none =>
          have hall : s.all plainChar = true := by
            have := hwf s (List.mem_cons_self s _)
            rw [wfSeg, hp] at this
            simpa using this
          have hnos : ('/' : Char) ∉ s := plain_no_slash s hall
          rw [show segAtoms s = s.map Atom.lit by simp [segAtoms, hp]]
          rw [runMatch_lits_sep s _ r1 r2 hnos hr1]
          by_cases hsr : s = r1
          · subst hsr
            rw [if_pos rfl, ih r2 (by simp) hwftail]
            by_cases hok : segsOK (t2 :: ts) (splitChar '/' r2) = true
            · simp [segsOK, segOK, hp, hok, segsCaps]
            · simp [segsOK, segOK, hp, hok]
          · rw [if_neg hsr]
            simp [segsOK, segOK, hp, hsr]
      · rw [runMatch_seg_sep_noslash s _ r hs]
        rw [splitChar_no_sep '/' r hs]
        simp [segsOK]

/-! ### Placeholder names of a compiled pattern (for claim C2) -/

theorem atomNames_append (xs ys : List Atom) :
    atomNames (xs ++ ys) = atomNames xs ++ atomNames ys := by
  induction xs with
  | nil => rfl
  | cons a xs ih =>
    cases a with
    | lit c => simpa [atomNames] using ih
    | dot => simpa [atomNames] using ih
    | grp n => simpa [atomNames] using ih

theorem atomNames_map_lit (s : List Char) :
    atomNames (s.map Atom.lit) = [] := by
  induction s with
  | nil => rfl
  | cons c s ih => simpa [atomNames] using ih

theorem atomNames_atomsJoin (ss : List (List Char)) :
    atomNames (atomsJoin (ss.map segAtoms)) = segsNames ss := by
  induction ss with
  | nil => rfl
  | cons s tail ih =>
    cases tail with
    | nil =>
      show atomNames (atomsJoin [segAtoms s]) = segsNames [s]
      rw [atomsJoin, intercalate_single]
      cases hp : paramNameOfSeg s with
      | some n => simp [segAtoms, hp, atomNames, segsNames]
      | none => simp [segAtoms, hp, atomNames, segsNames, atomNames_map_lit]
    | cons t2 ts =>
      rw [atomsJoin_cons2, atomNames_append]
      show atomNames (segAtoms s) ++ atomNames (Atom.lit '/'
        :: atomsJoin ((t2 :: ts).map segAtoms)) = segsNames (s :: t2 :: ts)
      rw [show atomNames (Atom.lit '/' :: atomsJoin ((t2 :: ts).map segAtoms))
        = atomNames (atomsJoin ((t2 :: ts).map segAtoms)) from rfl, ih]
      cases hp : paramNameOfSeg s with
      | some n => simp [segAtoms, hp, atomNames, segsNames]
      | none => simp [segAtoms, hp, segsNames, atomNames_map_lit]

theorem segsOK_all_literal (ps : List (List Char)) :
    ∀ qs : List (List Char),
      (∀ seg ∈ ps, paramNameOfSeg seg = none) →
      (segsOK ps qs = true ↔ ps = qs) := by
  induction ps with
  | nil =>
    intro qs h
    cases qs <;> simp [segsOK]
  | cons p ps ih =>
    intro qs h
    cases qs with
    | nil => simp [segsOK]
    | cons q qs =>
      have hp := h p (List.mem_cons_self p ps)
      have htail := fun seg hm => h seg (List.mem_cons_of_mem p hm)
      simp only [segsOK, segOK, hp, Bool.and_eq_true, List.cons.injEq]
      rw [ih qs htail]
      simp

/-! ### Theorems for claim C2 -/

/-- C2 counterexample: `MatchPath` compiles the pattern to a regex without
escaping, so a dot in a literal segment matches any character
(`Microsoft.Compute` matches `MicrosoftXCompute`), violating the
literal-equality direction of the claim; and a placeholder cannot match an
empty segment (`/a/{x}` does not match `/a/`), violating the
segment-count/literal-equality characterization in the other direction. -/
theorem matchPath_counterexample :
    (MatchPath "/providers/Microsoft.Compute/\x7bv\x7d"
        "/providers/MicrosoftXCompute/z").1 = true ∧
    specSegmentCondition "/providers/Microsoft.Compute/\x7bv\x7d"
        "/providers/MicrosoftXCompute/z" = false ∧
    (MatchPath "/a/\x7bx\x7d" "/a/").1 = false ∧
    specSegmentCondition "/a/\x7bx\x7d" "/a/" = true := by
  refine ⟨by decide, by decide, by decide, by decide⟩

/-- C2 amended: for patterns whose slash-segments are each a whole
placeholder or a literal free of regex metacharacters, `MatchPath`
succeeds iff the segment counts are equal, every literal segment equals
its counterpart, and every placeholder segment has a non-empty
counterpart; on success the parameters are exactly the placeholder names
zipped with the corresponding path segments in order; with zero
placeholders, a match is exactly string equality. A non-match returns
`(false, [])`. -/
theorem matchPath_spec (pattern requestPath : String)
    (hwf : wfPattern pattern.data = true) :
    ((MatchPath pattern requestPath).1 = true ↔
      segsOK (splitChar '/' pattern.data)
        (splitChar '/' requestPath.data) = true) ∧
    ((MatchPath pattern requestPath).1 = true →
      (MatchPath pattern requestPath).2
        = (segsNames (splitChar '/' pattern.data)).zip
            ((segsCaps (splitChar '/' pattern.data)
              (splitChar '/' requestPath.data)).map String.mk)) ∧
    ((∀ seg ∈ splitChar '/' pattern.data, paramNameOfSeg seg = none) →
      ((MatchPath pattern requestPath).1 = true ↔
        pattern = requestPath)) := by
  have hwf2 : ∀ seg ∈ splitChar '/' pattern.data, wfSeg seg = true := by
    rw [wfPattern, List.all_eq_true] at hwf
    exact hwf
  have hca : compileAtoms pattern.data
      = atomsJoin ((splitChar '/' pattern.data).map segAtoms) := by
    conv_lhs => rw [← join_splitChar '/' pattern.data]
    exact compileAtoms_join _ hwf2
  have hrm := runMatch_atomsJoin (splitChar '/' pattern.data)
    requestPath.data (splitChar_ne_nil _ _) hwf2
  have hmp : MatchPath pattern requestPath
      = (match runMatch (compileAtoms pattern.data) requestPath.data with
        | none => (false, [])
        | some caps => (true, (atomNames
            (compileAtoms pattern.data)).zip (caps.map String.mk))) := rfl
  rw [hmp, hca, hrm]
  by_cases hok : segsOK (splitChar '/' pattern.data)
      (splitChar '/' requestPath.data) = true
  · rw [if_pos hok]
    refine ⟨by simp [hok], ?_, ?_⟩
    · intro _
      show (atomNames (atomsJoin _)).zip _ = _
      rw [atomNames_atomsJoin]
    · intro hlit
      constructor
      · intro _
        have hpq := (segsOK_all_literal _ _ hlit).mp hok
        have hj := congrArg (List.intercalate ['/']) hpq
        rw [join_splitChar, join_splitChar] at hj
        exact String.ext hj
      · intro _
        rfl
  · rw [if_neg hok]
    refine ⟨by simp [hok], by simp, ?_⟩
    intro hlit
    constructor
    · intro h
      simp at h
    · intro heq
      exact absurd ((segsOK_all_literal _ _ hlit).mpr (by rw [heq])) hok

/-- Concrete instance of `matchPath_spec`. -/
theorem matchPath_spec_witness :
    (MatchPath "/a/\x7bx\x7d/c" "/a/b/c").1 = true ∧
    (MatchPath "/a/\x7bx\x7d/c" "/a/b/c").2 = [("x", "b")] := by
  refine ⟨(matchPath_spec "/a/\x7bx\x7d/c" "/a/b/c" (by decide)).1.mpr
      (by decide), ?_⟩
  rw [(matchPath_spec "/a/\x7bx\x7d/c" "/a/b/c" (by decide)).2.1
    ((matchPath_spec "/a/\x7bx\x7d/c" "/a/b/c" (by decide)).1.mpr
      (by decide))]
  decide

